import Mathlib

/-
  Verification development for the Discord-Exchange market engine.

  Shallow embedding of the core simulation code:
    - stock_manager.py : StockManager (regime changes, price ticks, buy/sell,
      bankruptcy, emergency sweep)
    - dividends.py     : DividendManager (daily dividend run)
    - decay.py         : DecayManager (popularity ranking, decay, decay risk)
    - user_manager.py / data_manager.py : the parts of the user store the
      engine mutates (balance updates, user creation).

  Modelling conventions:
    - Python dicts are association lists in insertion order; `setk` updates an
      existing key in place or appends a new one (dict assignment), `delk`
      removes a key (dict `del`), `List.lookup` is dict indexing / `get`.
    - Prices and balances are rationals; `round2` models Python's
      `round(x, 2)` as decimal rounding to cents (ties half-up; the source
      rounds IEEE floats, which differs only on exact half-cent ties — no
      claim depends on a tie).
    - Random draws (`random.uniform`, `random.choices`) are explicit
      parameters; theorems that quote the sampling intervals take the
      interval bounds as hypotheses on those parameters.
    - Discord I/O (messages, embeds, channels) and the log calls are pure
      presentation and are omitted; file persistence (`save_stocks`,
      `DataManager.save_data`) is modelled by threading the state explicitly,
      matching the source's load/modify/save-whole-file discipline.
-/

/-- Python `round(x, 2)`: decimal rounding of a price to cents. -/
def round2 (q : ℚ) : ℚ := (⌊q * 100 + 1 / 2⌋ : ℚ) / 100

/-- Dict assignment `m[k] = v`: replace the entry for `k` in place, or append
a fresh entry at the end, as Python dicts do. -/
def setk {α : Type} : List (String × α) → String → α → List (String × α)
  | [], k, v => [(k, v)]
  | (k', v') :: t, k, v => if k' = k then (k, v) :: t else (k', v') :: setk t k v

/-- Dict deletion `del m[k]` (a no-op when the key is absent, used for the
membership-guarded deletes in the bankruptcy path). -/
def delk {α : Type} : List (String × α) → String → List (String × α)
  | [], _ => []
  | (k', v') :: t, k => if k' = k then delk t k else (k', v') :: delk t k

/-- The `if k not in d: d[k] = 0` then `d[k] += v` accumulation pattern used
for the dividend dictionaries. -/
def addk (m : List (String × ℚ)) (k : String) (v : ℚ) : List (String × ℚ) :=
  match m.lookup k with
  | some old => setk m k (old + v)
  | none => m ++ [(k, v)]

/-- One record of `user_data.json`: the fields the market engine touches.
A missing `inventory` / `purchase_dates` key behaves exactly like an empty
dict in every embedded operation, so both are plain lists here. -/
structure UserRec where
  balance : ℚ
  inventory : List (String × Int)
  purchase_dates : List (String × List String)
  last_dividend : Option (String × ℚ)
deriving Repr, DecidableEq

/-- The whole user store (`user_data.json`), keys in insertion order. -/
abbrev UserData : Type := List (String × UserRec)

/-- config.DEFAULT_USER_DATA (the fields modelled here). -/
def DEFAULT_USER_DATA : UserRec := ⟨50, [], [], none⟩

/-- config.SELLING_FEE. -/
def SELLING_FEE : ℚ := 7

/-- config.STOCK_BUY_MIN_CHANGE. -/
def STOCK_BUY_MIN_CHANGE : ℚ := 3

/-- config.STOCK_BUY_MAX_CHANGE. -/
def STOCK_BUY_MAX_CHANGE : ℚ := 9

/-- config.STOCK_SELL_MIN_CHANGE. -/
def STOCK_SELL_MIN_CHANGE : ℚ := 3

/-- config.STOCK_SELL_MAX_CHANGE. -/
def STOCK_SELL_MAX_CHANGE : ℚ := 9

/-- StockManager's class-level market state, as persisted in stocks.json.
`last_condition_change` is a timestamp in seconds (None on first run). -/
structure MarketState where
  stock_symbols : List String
  user_to_ticker : List (String × String)
  stock_prices : List (String × ℚ)
  price_history : List (String × List ℚ)
  market_condition : String
  current_min_change : ℚ
  current_max_change : ℚ
  last_condition_change : Option ℚ
deriving Repr, DecidableEq

/-- The ten `random.uniform` draws made when building the candidate market
conditions in `check_market_condition` (all five are sampled eagerly before
the weighted choice picks one). -/
structure RegimeDraws where
  bear_min : ℚ
  bear_max : ℚ
  bull_min : ℚ
  bull_max : ℚ
  vol_min : ℚ
  vol_max : ℚ
  stable_min : ℚ
  stable_max : ℚ
  crash_min : ℚ
  crash_max : ℚ

/-- One entry of the `conditions` list in `check_market_condition`. -/
structure Condition where
  name : String
  weight : ℚ
  min_change : ℚ
  max_change : ℚ
deriving Repr, DecidableEq

/-- The `conditions` candidate list (weights 0.2, 0.2, 0.2, 0.35, 0.05). -/
def conditions (d : RegimeDraws) : List Condition :=
  [⟨"bear", 1/5, d.bear_min, d.bear_max⟩,
   ⟨"bull", 1/5, d.bull_min, d.bull_max⟩,
   ⟨"volatile", 1/5, d.vol_min, d.vol_max⟩,
   ⟨"stable", 7/20, d.stable_min, d.stable_max⟩,
   ⟨"crash", 1/20, d.crash_min, d.crash_max⟩]

/-- Committing the condition chosen by `random.choices` (index `i` into the
candidate list): regime name, interval, and timestamp are set together. -/
def applyRegimeChoice (st : MarketState) (now : ℚ) (d : RegimeDraws) (i : Fin 5) : MarketState :=
  let c := (conditions d).getD i.val ⟨"bear", 1/5, d.bear_min, d.bear_max⟩
  { st with market_condition := c.name, current_min_change := c.min_change,
            current_max_change := c.max_change, last_condition_change := some now }

/-- StockManager.check_market_condition: a no-op while fewer than 9 hours
(`(now - last).total_seconds() / 3600 < 9`) have passed since the last
transition, otherwise a fresh weighted draw. -/
def check_market_condition (st : MarketState) (now : ℚ) (d : RegimeDraws) (i : Fin 5) :
    MarketState :=
  match st.last_condition_change with
  | some t => if (now - t) / 3600 < 9 then st else applyRegimeChoice st now d i
  | none => applyRegimeChoice st now d i

/-- The holders a bankruptcy reports: every user record whose inventory has an
entry for `symbol`, paired with the recorded share count. -/
def holders_of (users : UserData) (symbol : String) : List (String × Int) :=
  users.filterMap (fun u => (u.2.inventory.lookup symbol).map (fun sh => (u.1, sh)))

/-- The per-user cleanup loop of handle_bankruptcy: drop the bankrupt
symbol from the inventory and from the purchase-date log. -/
def cleanupUser (symbol : String) (u : String × UserRec) : String × UserRec :=
  (u.1, { u.2 with inventory := delk u.2.inventory symbol,
                   purchase_dates := delk u.2.purchase_dates symbol })

/-- StockManager.handle_bankruptcy: membership-guarded removal of `symbol`
from the price map, history map, symbol list, and creator mapping, plus the
per-user inventory / purchase-date cleanup; returns the (user, shares-lost)
announcement list. Discord message deletion is presentation and omitted. -/
def handle_bankruptcy (st : MarketState) (users : UserData) (symbol : String) :
    MarketState × UserData × List (String × Int) :=
  let associated_user_id := (st.user_to_ticker.find? (fun p => p.2 = symbol)).map (fun p => p.1)
  let bankruptcy_announcement := holders_of users symbol
  let users' : UserData := users.map (cleanupUser symbol)
  let u2t' := match associated_user_id with
    | some uid => delk st.user_to_ticker uid
    | none => st.user_to_ticker
  ({ st with stock_prices := delk st.stock_prices symbol,
             price_history := delk st.price_history symbol,
             stock_symbols := st.stock_symbols.erase symbol,
             user_to_ticker := u2t' },
   users', bankruptcy_announcement)

/-- The history cap of `update_prices`: keep only the most recent 175
entries (`history[-175:]` once the length exceeds 175). -/
def truncate175 (h : List ℚ) : List ℚ :=
  if 175 < h.length then h.drop (h.length - 175) else h

/-- The rounded candidate price `round(current + (change + change * jitter), 2)`
that `update_prices` computes for a symbol, read off the price map `pr`. -/
def tickNewPrice (draws : String → ℚ × ℚ) (pr : List (String × ℚ)) (s : String) : ℚ :=
  round2 (((pr.lookup s).getD 0) + ((draws s).1 + (draws s).1 * (draws s).2))

/-- The body of the per-symbol update in `update_prices` past the
already-bankrupt check: draw, jitter, round, commit or queue. `draws s` is
the pair (base change, jitter factor) sampled for symbol `s`. -/
def tickStep (draws : String → ℚ × ℚ) (pr : List (String × ℚ)) (hi : List (String × List ℚ))
    (bk : List String) (symbol : String) :
    List (String × ℚ) × List (String × List ℚ) × List String :=
  let new_price := tickNewPrice draws pr symbol
  if new_price ≤ 0 then
    (setk pr symbol 0, setk hi symbol (((hi.lookup symbol).getD []) ++ [(0 : ℚ)]), bk ++ [symbol])
  else
    (setk pr symbol new_price,
     setk hi symbol (truncate175 (((hi.lookup symbol).getD []) ++ [new_price])), bk)

/-- One iteration of the price-update loop: symbols already at a price ≤ 0
are queued untouched, every other symbol goes through `tickStep`. -/
def tickOne (draws : String → ℚ × ℚ)
    (acc : List (String × ℚ) × List (String × List ℚ) × List String) (symbol : String) :
    List (String × ℚ) × List (String × List ℚ) × List String :=
  match acc.1.lookup symbol with
  | some p =>
      if p ≤ 0 then (acc.1, acc.2.1, acc.2.2 ++ [symbol])
      else tickStep draws acc.1 acc.2.1 acc.2.2 symbol
  | none => tickStep draws acc.1 acc.2.1 acc.2.2 symbol

/-- One iteration of the bankruptcy loop at the end of `update_prices`:
`handle_bankruptcy` guarded by `symbol in stock_prices`, collecting the
(symbol, affected holders) announcement. -/
def bankruptOne (acc : MarketState × UserData × List (String × List (String × Int)))
    (symbol : String) : MarketState × UserData × List (String × List (String × Int)) :=
  if (acc.1.stock_prices.lookup symbol).isSome then
    let x := handle_bankruptcy acc.1 acc.2.1 symbol
    (x.1, x.2.1, acc.2.2 ++ [(symbol, x.2.2)])
  else acc

/-- StockManager.update_prices: regime check, per-symbol update over a copy
of the symbol list, then `handle_bankruptcy` for every queued symbol (guarded
by `symbol in stock_prices`), collecting the announcement report. -/
def update_prices (st : MarketState) (users : UserData) (now : ℚ) (d : RegimeDraws) (i : Fin 5)
    (draws : String → ℚ × ℚ) :
    MarketState × UserData × List (String × List (String × Int)) :=
  let st0 := check_market_condition st now d i
  let r := st0.stock_symbols.foldl (tickOne draws) (st0.stock_prices, st0.price_history, [])
  let st1 := { st0 with stock_prices := r.1, price_history := r.2.1 }
  r.2.2.foldl bankruptOne (st1, users, [])

/-- One step of the emergency sweep: unconditional `handle_bankruptcy`
(announcement collection is presentation and dropped). -/
def sweepOne (acc : MarketState × UserData) (s : String) : MarketState × UserData :=
  let x := handle_bankruptcy acc.1 acc.2 s
  (x.1, x.2.1)

/-- StockManager.handle_emergency_bankruptcies: bankrupt every symbol whose
stored price is ≤ 0; `false` when there was nothing to do. The Discord
announcement block is presentation and omitted. -/
def handle_emergency_bankruptcies (st : MarketState) (users : UserData) :
    MarketState × UserData × Bool :=
  let bankrupt_stocks := (st.stock_prices.filter (fun p => p.2 ≤ 0)).map (fun p => p.1)
  if bankrupt_stocks.isEmpty then (st, users, false)
  else
    let r := bankrupt_stocks.foldl sweepOne (st, users)
    (r.1, r.2, true)

/-- StockManager.buy_stock. `none` models the KeyError a non-listed symbol
raises on the very first price lookup; `change` is the
`uniform(STOCK_BUY_MIN_CHANGE, STOCK_BUY_MAX_CHANGE)` impact draw and `today`
the EST date string. The purchase date is recorded only for users already
present in the store. Returns the updated market / user state and the
pre-impact purchase price. -/
def buy_stock (st : MarketState) (users : UserData) (symbol user_id today : String)
    (change : ℚ) : Option (MarketState × UserData × ℚ) :=
  match st.stock_prices.lookup symbol with
  | none => none
  | some price =>
    let users' : UserData :=
      match users.lookup user_id with
      | none => users
      | some u =>
        let pd := setk u.purchase_dates symbol
          (((u.purchase_dates.lookup symbol).getD []) ++ [today])
        setk users user_id { u with purchase_dates := pd }
    let new_price := price + change
    some ({ st with
              stock_prices := setk st.stock_prices symbol (round2 new_price),
              price_history := setk st.price_history symbol
                (((st.price_history.lookup symbol).getD []) ++ [round2 new_price]) },
          users', price)

/-- The triple StockManager.sell_stock returns. -/
structure SellOutcome where
  sale_price : ℚ
  same_day_sale : Bool
  bankruptcy_triggered : Bool
deriving Repr, DecidableEq

/-- The same-day-sale block of StockManager.sell_stock: the source's
`symbol in purchase_dates and purchase_dates[symbol]` guard followed by
`today in purchase_dates[symbol]`; on success removes one occurrence of today
(`list.remove`) and saves, reporting the fee flag. -/
def same_day_check (users : UserData) (symbol user_id today : String) : Bool × UserData :=
  match users.lookup user_id with
  | none => (false, users)
  | some u =>
    match u.purchase_dates.lookup symbol with
    | none => (false, users)
    | some dates =>
      if dates ≠ [] ∧ today ∈ dates then
        (true, setk users user_id
          { u with purchase_dates := setk u.purchase_dates symbol (dates.erase today) })
      else (false, users)

/-- StockManager.sell_stock. `none` models the KeyError of a non-listed
symbol; `change` is the `uniform(STOCK_SELL_MIN_CHANGE, STOCK_SELL_MAX_CHANGE)`
impact draw. On a post-impact price ≤ 0 the bankruptcy runs inside the call
and no new price or history entry is written. -/
def sell_stock (st : MarketState) (users : UserData) (symbol user_id today : String)
    (change : ℚ) : Option (MarketState × UserData × SellOutcome) :=
  match st.stock_prices.lookup symbol with
  | none => none
  | some base_price =>
    let sd : Bool × UserData := same_day_check users symbol user_id today
    let fee : ℚ := if sd.1 then SELLING_FEE else 0
    let sale_price := base_price - fee
    let new_price := round2 (base_price - change)
    if new_price ≤ 0 then
      let x := handle_bankruptcy st sd.2 symbol
      some (x.1, x.2.1, ⟨sale_price, sd.1, true⟩)
    else
      some ({ st with
                stock_prices := setk st.stock_prices symbol new_price,
                price_history := setk st.price_history symbol
                  (((st.price_history.lookup symbol).getD []) ++ [new_price]) },
            sd.2, ⟨sale_price, sd.1, false⟩)

/-- DividendManager.TOP_SHAREHOLDERS_COUNT. -/
def TOP_SHAREHOLDERS_COUNT : Nat := 3

/-- DividendManager.CREATOR_DIVIDEND_PERCENT (0.5% per third-party share). -/
def CREATOR_DIVIDEND_PERCENT : ℚ := 1/2

/-- DividendManager.TOP_SHAREHOLDER_DIVIDENDS: percent of price per rank. -/
def TOP_SHAREHOLDER_DIVIDENDS : Nat → Option ℚ
  | 0 => some 1
  | 1 => some (1/2)
  | 2 => some (1/4)
  | _ => none

/-- Ordering used for the shareholder ranking: shares descending. A stable
insertion sort matches Python's stable `list.sort(key=..., reverse=True)`. -/
def sharesGE (a b : String × Int) : Prop := b.2 ≤ a.2

instance : DecidableRel sharesGE := fun a b => inferInstanceAs (Decidable (b.2 ≤ a.2))

instance : IsTotal (String × Int) sharesGE := ⟨fun a b => Int.le_total b.2 a.2⟩

instance : IsTrans (String × Int) sharesGE := ⟨fun _ _ _ h1 h2 => le_trans h2 h1⟩

/-- DividendManager._get_shareholders: every user holding a strictly positive
quantity of `symbol`, sorted by shares descending (stable). -/
def get_shareholders (users : UserData) (symbol : String) : List (String × Int) :=
  (users.filterMap (fun u =>
    match u.2.inventory.lookup symbol with
    | some sh => if 0 < sh then some (u.1, sh) else none
    | none => none)).insertionSort sharesGE

/-- The creator-finding loop shared by dividends.py and decay.py: first user
in the creator mapping whose ticker is `symbol`. -/
def find_creator (u2t : List (String × String)) (symbol : String) : Option String :=
  (u2t.find? (fun p => p.2 = symbol)).map (fun p => p.1)

/-- DividendManager._calculate_top_shareholder_dividends: each of the first
three ranked holders is credited `round(price * percent(rank) / 100, 2)`. -/
def calculate_top_shareholder_dividends (stock_price : ℚ) (shareholders : List (String × Int))
    (dividends : List (String × ℚ)) : List (String × ℚ) :=
  (shareholders.take TOP_SHAREHOLDERS_COUNT).enum.foldl (fun d ru =>
    match TOP_SHAREHOLDER_DIVIDENDS ru.1 with
    | some percent => addk d ru.2.1 (round2 (stock_price * (percent / 100)))
    | none => d) dividends

/-- DividendManager._calculate_creator_dividends: when a creator exists (and
is non-falsy) and other users hold shares, the creator is credited
`round(price * 0.5/100 * total_other_shares, 2)`. -/
def calculate_creator_dividends (u2t : List (String × String)) (symbol : String)
    (stock_price : ℚ) (shareholders : List (String × Int))
    (dividends : List (String × ℚ)) : List (String × ℚ) :=
  match find_creator u2t symbol with
  | none => dividends
  | some creator_id =>
    if creator_id = "" then dividends
    else
      let total_other_shares :=
        ((shareholders.filter (fun p => p.1 ≠ creator_id)).map (fun p => p.2)).sum
      if 0 < total_other_shares then
        addk dividends creator_id
          (round2 (stock_price * (CREATOR_DIVIDEND_PERCENT / 100) * (total_other_shares : ℚ)))
      else dividends

/-- DataManager.ensure_user: lazily create a user with the default record. -/
def ensure_user (users : UserData) (user_id : String) : UserData :=
  if (users.lookup user_id).isSome then users else users ++ [(user_id, DEFAULT_USER_DATA)]

/-- UserManager.update_balance; the absent-user case (a KeyError in the
source) is totalised to a no-op — every embedded call site ensures the user
exists first. -/
def update_balance (users : UserData) (user_id : String) (amount : ℚ) : UserData :=
  match users.lookup user_id with
  | some u => setk users user_id { u with balance := u.balance + amount }
  | none => users

/-- One stock of the process_daily_dividends accumulation loop: skip symbols
without a price entry or with price ≤ 0, otherwise fold both calculators over
the shareholder snapshot. -/
def dividend_step (st : MarketState) (users : UserData)
    (acc : List (String × ℚ) × List (String × ℚ)) (symbol : String) :
    List (String × ℚ) × List (String × ℚ) :=
  match st.stock_prices.lookup symbol with
  | none => acc
  | some stock_price =>
    if stock_price ≤ 0 then acc
    else
      let shareholders := get_shareholders users symbol
      (calculate_top_shareholder_dividends stock_price shareholders acc.1,
       calculate_creator_dividends st.user_to_ticker symbol stock_price shareholders acc.2)

/-- The per-stock accumulation loop of process_daily_dividends. -/
def dividend_pass (st : MarketState) (users : UserData) :
    List (String × ℚ) × List (String × ℚ) :=
  st.stock_symbols.foldl (dividend_step st users) ([], [])

/-- The per-user application step of process_daily_dividends: ensure the
user exists, and when the user's summed total is positive, credit it to the
balance and overwrite the last-dividend record with today and the total. -/
def apply_user_dividend (p1 p2 : List (String × ℚ)) (today : String) (us : UserData)
    (user_id : String) : UserData :=
  let us1 := ensure_user us user_id
  let total_dividend := ((p1.lookup user_id).getD 0) + ((p2.lookup user_id).getD 0)
  if 0 < total_dividend then
    let us2 := update_balance us1 user_id total_dividend
    match us2.lookup user_id with
    | some u => setk us2 user_id { u with last_dividend := some (today, total_dividend) }
    | none => us2
  else us1

/-- The users paid by one dividend run: every key of either accumulated
dictionary (the source's set union, here deduplicated in order). -/
def dividendIds (st : MarketState) (users : UserData) : List String :=
  ((dividend_pass st users).1.map (fun q => q.1) ++
    (dividend_pass st users).2.map (fun q => q.1)).dedup

/-- DividendManager.process_daily_dividends: accumulate both dividend
dictionaries, then apply the per-user step for every user in either one.
Returns the final user store and both dictionaries. -/
def process_daily_dividends (st : MarketState) (users : UserData) (today : String) :
    UserData × List (String × ℚ) × List (String × ℚ) :=
  let p := dividend_pass st users
  let users' := (dividendIds st users).foldl (apply_user_dividend p.1 p.2 today) users
  (users', p.1, p.2)

/-- Ordering used for the popularity ranking: popularity ascending. A stable
insertion sort matches Python's stable `sorted(..., key=lambda x: x[1])`. -/
def popLE (a b : String × Nat) : Prop := a.2 ≤ b.2

instance : DecidableRel popLE := fun a b => inferInstanceAs (Decidable (a.2 ≤ b.2))

instance : IsTotal (String × Nat) popLE := ⟨fun a b => Nat.le_total a.2 b.2⟩

instance : IsTrans (String × Nat) popLE := ⟨fun _ _ _ => Nat.le_trans⟩

/-- The popularity score of one symbol in _calculate_stock_popularity: the
number of users holding a strictly positive quantity, plus 1 when the
creator's record has an inventory entry for their own stock. -/
def popScore (st : MarketState) (users : UserData) (symbol : String) : Nat :=
  (users.filter (fun u =>
    match u.2.inventory.lookup symbol with
    | some q => decide (0 < q)
    | none => false)).length +
  (match find_creator st.user_to_ticker symbol with
   | some creator_id =>
     match users.lookup creator_id with
     | some u => if (u.inventory.lookup symbol).isSome then 1 else 0
     | none => 0
   | none => 0)

/-- DecayManager._calculate_stock_popularity: the popularity score of every
listed symbol, in listing order. -/
def calculate_stock_popularity (st : MarketState) (users : UserData) : List (String × Nat) :=
  st.stock_symbols.map (fun symbol => (symbol, popScore st users symbol))

/-- One iteration of the decay loop: depreciate by `percent`, floor at 0.01,
round to cents, commit and append to history (skipping symbols without a
price entry, as the source's membership guard does). -/
def decayOne (percent : ℚ) (acc : MarketState × List String) (sp : String × Nat) :
    MarketState × List String :=
  match acc.1.stock_prices.lookup sp.1 with
  | none => acc
  | some current_price =>
    let new_price := round2 (max (1/100) (current_price * (1 - percent / 100)))
    ({ acc.1 with
         stock_prices := setk acc.1.stock_prices sp.1 new_price,
         price_history := setk acc.1.price_history sp.1
           (((acc.1.price_history.lookup sp.1).getD []) ++ [new_price]) },
     acc.2 ++ [sp.1])

/-- DecayManager.apply_stock_decay. `threshold` is config.STOCK_DECAY_THRESHOLD
and `percent` config.STOCK_DECAY_PERCENT (configuration values the source
reads from config). Returns the updated market state and the decayed symbols. -/
def apply_stock_decay (threshold : Nat) (percent : ℚ) (st : MarketState) (users : UserData) :
    MarketState × List String :=
  let total_stocks := st.stock_symbols.length
  if total_stocks ≤ threshold then (st, [])
  else
    let excess_stocks := total_stocks - threshold
    let sorted_stocks := (calculate_stock_popularity st users).insertionSort popLE
    let stocks_to_decay := sorted_stocks.take excess_stocks
    stocks_to_decay.foldl (decayOne percent) (st, [])

/-- DecayManager.get_decay_risk_stocks: pure report of (symbol, risk factor)
for the excess symbols (100.0) and up to 3 buffer symbols
(`100 - position * 75 / buffer`). -/
def get_decay_risk_stocks (threshold : Nat) (st : MarketState) (users : UserData) :
    List (String × ℚ) :=
  let total_stocks := st.stock_symbols.length
  if total_stocks ≤ threshold then []
  else
    let excess_stocks := total_stocks - threshold
    let sorted_stocks := (calculate_stock_popularity st users).insertionSort popLE
    let buffer := min 3 (sorted_stocks.length - excess_stocks)
    let risk_count := excess_stocks + buffer
    (sorted_stocks.take risk_count).enum.map (fun ip =>
      if ip.1 < excess_stocks then (ip.2.1, (100 : ℚ))
      else (ip.2.1,
        100 - (if 0 < buffer then (((ip.1 - excess_stocks : Nat) : ℚ) * 75) / (buffer : ℚ) else 0)))

/-- Well-formedness of the market document: no duplicate listings, and every
listed symbol has a price entry and a history entry (the data-model invariant
the spec states for the symbol / price / history collections). -/
def WFMarket (st : MarketState) : Prop :=
  st.stock_symbols.Nodup ∧
  (∀ s ∈ st.stock_symbols, (st.stock_prices.lookup s).isSome = true) ∧
  (∀ s ∈ st.stock_symbols, (st.price_history.lookup s).isSome = true)

/- ### Association-list lemmas -/

theorem lookup_setk_self {α : Type} (m : List (String × α)) (k : String) (v : α) :
    (setk m k v).lookup k = some v := by
  induction m with
  | nil => simp [setk, List.lookup]
  | cons hd t ih =>
    obtain ⟨a, b⟩ := hd
    by_cases hk : a = k
    · simp [setk, hk, List.lookup]
    · simp [setk, hk, List.lookup, beq_false_of_ne (Ne.symm hk), ih]

theorem lookup_setk_ne {α : Type} (m : List (String × α)) {k k' : String} (v : α)
    (h : k' ≠ k) : (setk m k v).lookup k' = m.lookup k' := by
  induction m with
  | nil => simp [setk, List.lookup, beq_false_of_ne h]
  | cons hd t ih =>
    obtain ⟨a, b⟩ := hd
    by_cases hk : a = k
    · subst hk
      simp [setk, List.lookup, beq_false_of_ne h]
    · by_cases hk' : k' = a
      · subst hk'
        simp [setk, hk, List.lookup]
      · simp [setk, hk, List.lookup, beq_false_of_ne hk', ih]

theorem lookup_delk_self {α : Type} (m : List (String × α)) (k : String) :
    (delk m k).lookup k = none := by
  induction m with
  | nil => simp [delk, List.lookup]
  | cons hd t ih =>
    obtain ⟨a, b⟩ := hd
    by_cases hk : a = k
    · simp [delk, hk, ih]
    · simp [delk, hk, List.lookup, beq_false_of_ne (Ne.symm hk), ih]

theorem lookup_delk_ne {α : Type} (m : List (String × α)) {k k' : String}
    (h : k' ≠ k) : (delk m k).lookup k' = m.lookup k' := by
  induction m with
  | nil => simp [delk]
  | cons hd t ih =>
    obtain ⟨a, b⟩ := hd
    by_cases hk : a = k
    · subst hk
      simp [delk, List.lookup, beq_false_of_ne h, ih]
    · by_cases hk' : k' = a
      · subst hk'
        simp [delk, hk, List.lookup]
      · simp [delk, hk, List.lookup, beq_false_of_ne hk', ih]

theorem delk_of_lookup_none {α : Type} (m : List (String × α)) (k : String)
    (h : m.lookup k = none) : delk m k = m := by
  induction m with
  | nil => simp [delk]
  | cons hd t ih =>
    obtain ⟨a, b⟩ := hd
    by_cases hk : a = k
    · subst hk
      simp [List.lookup] at h
    · simp only [List.lookup, beq_false_of_ne (Ne.symm hk)] at h
      simp [delk, hk, ih h]

theorem lookup_append {α : Type} (m m' : List (String × α)) (k : String) :
    (m ++ m').lookup k = ((m.lookup k).or (m'.lookup k)) := by
  induction m with
  | nil => simp [List.lookup]
  | cons hd t ih =>
    obtain ⟨a, b⟩ := hd
    by_cases hk : k = a
    · simp [List.lookup, hk]
    · simp [List.lookup, beq_false_of_ne hk, ih]

theorem lookup_addk_self (m : List (String × ℚ)) (k : String) (v : ℚ) :
    (addk m k v).lookup k = some (((m.lookup k).getD 0) + v) := by
  unfold addk
  cases hm : m.lookup k with
  | none => simp [lookup_append, hm, List.lookup]
  | some old => simp [hm, lookup_setk_self]

theorem lookup_addk_ne (m : List (String × ℚ)) {k k' : String} (v : ℚ) (h : k' ≠ k) :
    (addk m k v).lookup k' = m.lookup k' := by
  unfold addk
  cases hm : m.lookup k with
  | none =>
    rw [lookup_append]
    simp [List.lookup, beq_false_of_ne h]
  | some old => simp [lookup_setk_ne _ _ h]

/- ### Price-update loop lemmas -/

/-- Decision of the per-symbol loop: does `update_prices` queue `s` for
bankruptcy, given the price map `pr` at the start of the loop? -/
def tickQueued (draws : String → ℚ × ℚ) (pr : List (String × ℚ)) (s : String) : Bool :=
  match pr.lookup s with
  | some p => decide (p ≤ 0) || decide (tickNewPrice draws pr s ≤ 0)
  | none => decide (tickNewPrice draws pr s ≤ 0)

theorem tickNewPrice_congr (draws : String → ℚ × ℚ) {pr pr' : List (String × ℚ)} {s : String}
    (h : pr'.lookup s = pr.lookup s) : tickNewPrice draws pr' s = tickNewPrice draws pr s := by
  unfold tickNewPrice
  rw [h]

theorem tickQueued_congr (draws : String → ℚ × ℚ) {pr pr' : List (String × ℚ)} {s : String}
    (h : pr'.lookup s = pr.lookup s) : tickQueued draws pr' s = tickQueued draws pr s := by
  unfold tickQueued
  rw [h, tickNewPrice_congr draws h]

theorem tickOne_ne (draws : String → ℚ × ℚ)
    (acc : List (String × ℚ) × List (String × List ℚ) × List String) {s s' : String}
    (h : s ≠ s') :
    ((tickOne draws acc s').1.lookup s = acc.1.lookup s) ∧
    ((tickOne draws acc s').2.1.lookup s = acc.2.1.lookup s) ∧
    (s ∈ (tickOne draws acc s').2.2 ↔ s ∈ acc.2.2) := by
  obtain ⟨pr, hi, bk⟩ := acc
  unfold tickOne tickStep
  cases hpr : List.lookup s' pr with
  | some p =>
    by_cases hp : p ≤ 0
    · simp [hpr, hp, h]
    · simp only [hpr, if_neg hp]
      split <;> simp [lookup_setk_ne _ _ h, h]
  | none =>
    simp only [hpr]
    split <;> simp [lookup_setk_ne _ _ h, h]

theorem tickOne_bk (draws : String → ℚ × ℚ)
    (acc : List (String × ℚ) × List (String × List ℚ) × List String) (s : String) :
    (tickOne draws acc s).2.2 =
      if tickQueued draws acc.1 s then acc.2.2 ++ [s] else acc.2.2 := by
  obtain ⟨pr, hi, bk⟩ := acc
  unfold tickOne tickStep tickQueued
  cases hpr : List.lookup s pr with
  | some p =>
    by_cases hp : p ≤ 0
    · simp [hpr, hp]
    · by_cases hnp : tickNewPrice draws pr s ≤ 0
      · simp [hpr, hp, hnp]
      · simp [hpr, hp, hnp]
  | none =>
    by_cases hnp : tickNewPrice draws pr s ≤ 0
    · simp [hpr, hnp]
    · simp [hpr, hnp]

theorem phase1_preserve (draws : String → ℚ × ℚ) (l : List String) :
    ∀ (pr : List (String × ℚ)) (hi : List (String × List ℚ)) (bk : List String)
      (s : String), s ∉ l →
    ((l.foldl (tickOne draws) (pr, hi, bk)).1.lookup s = pr.lookup s ∧
     (l.foldl (tickOne draws) (pr, hi, bk)).2.1.lookup s = hi.lookup s ∧
     (s ∈ (l.foldl (tickOne draws) (pr, hi, bk)).2.2 ↔ s ∈ bk)) := by
  induction l with
  | nil => intro pr hi bk s _; simp
  | cons a t ih =>
    intro pr hi bk s hs
    have hsa : s ≠ a := fun he => hs (he ▸ List.mem_cons_self a t)
    have hst : s ∉ t := fun he => hs (List.mem_cons_of_mem a he)
    have h1 := tickOne_ne draws (pr, hi, bk) hsa
    have h2 := ih (tickOne draws (pr, hi, bk) a).1 (tickOne draws (pr, hi, bk) a).2.1
      (tickOne draws (pr, hi, bk) a).2.2 s hst
    simp only [List.foldl_cons]
    exact ⟨h2.1.trans h1.1, h2.2.1.trans h1.2.1, h2.2.2.trans h1.2.2⟩

theorem phase1_bk (draws : String → ℚ × ℚ) (l : List String) :
    ∀ (pr : List (String × ℚ)) (hi : List (String × List ℚ)) (bk : List String), l.Nodup →
    (l.foldl (tickOne draws) (pr, hi, bk)).2.2 = bk ++ l.filter (tickQueued draws pr) := by
  induction l with
  | nil => intro pr hi bk _; simp
  | cons a t ih =>
    intro pr hi bk hnd
    have hat : a ∉ t := (List.nodup_cons.mp hnd).1
    have hndt : t.Nodup := (List.nodup_cons.mp hnd).2
    simp only [List.foldl_cons]
    set x := tickOne draws (pr, hi, bk) a with hx
    have h2 := ih x.1 x.2.1 x.2.2 hndt
    have hfil : t.filter (tickQueued draws x.1) = t.filter (tickQueued draws pr) := by
      apply List.filter_congr
      intro y hy
      exact tickQueued_congr draws (tickOne_ne draws (pr, hi, bk)
        (ne_of_mem_of_not_mem hy hat)).1
    rw [show t.foldl (tickOne draws) x = t.foldl (tickOne draws) (x.1, x.2.1, x.2.2) from rfl] at *
    rw [h2, hfil, tickOne_bk draws (pr, hi, bk) a]
    by_cases hq : tickQueued draws pr a
    · simp [hq, List.filter_cons_of_pos, List.append_assoc]
    · simp [hq]

theorem tickOne_self_already (draws : String → ℚ × ℚ)
    (acc : List (String × ℚ) × List (String × List ℚ) × List String) (s : String) (p : ℚ)
    (hpr : acc.1.lookup s = some p) (hp : p ≤ 0) :
    tickOne draws acc s = (acc.1, acc.2.1, acc.2.2 ++ [s]) := by
  obtain ⟨pr, hi, bk⟩ := acc
  simp only at hpr
  simp [tickOne, hpr, hp]

theorem tickOne_self_bankrupt (draws : String → ℚ × ℚ)
    (acc : List (String × ℚ) × List (String × List ℚ) × List String) (s : String) (p : ℚ)
    (hpr : acc.1.lookup s = some p) (hp : ¬ p ≤ 0) (hnp : tickNewPrice draws acc.1 s ≤ 0) :
    tickOne draws acc s =
      (setk acc.1 s 0, setk acc.2.1 s (((acc.2.1.lookup s).getD []) ++ [(0 : ℚ)]),
       acc.2.2 ++ [s]) := by
  obtain ⟨pr, hi, bk⟩ := acc
  simp only at hpr hnp
  simp [tickOne, tickStep, hpr, hp, hnp]

theorem tickOne_self_survive (draws : String → ℚ × ℚ)
    (acc : List (String × ℚ) × List (String × List ℚ) × List String) (s : String) (p : ℚ)
    (hpr : acc.1.lookup s = some p) (hp : ¬ p ≤ 0) (hnp : ¬ tickNewPrice draws acc.1 s ≤ 0) :
    tickOne draws acc s =
      (setk acc.1 s (tickNewPrice draws acc.1 s),
       setk acc.2.1 s (truncate175 (((acc.2.1.lookup s).getD []) ++ [tickNewPrice draws acc.1 s])),
       acc.2.2) := by
  obtain ⟨pr, hi, bk⟩ := acc
  simp only at hpr hnp
  simp [tickOne, tickStep, hpr, hp, hnp]

theorem phase1_at (draws : String → ℚ × ℚ) (l : List String)
    (pr : List (String × ℚ)) (hi : List (String × List ℚ)) {s : String}
    (hnd : l.Nodup) (hs : s ∈ l) :
    (∀ p, pr.lookup s = some p → p ≤ 0 →
        (l.foldl (tickOne draws) (pr, hi, [])).1.lookup s = some p ∧
        (l.foldl (tickOne draws) (pr, hi, [])).2.1.lookup s = hi.lookup s ∧
        s ∈ (l.foldl (tickOne draws) (pr, hi, [])).2.2) ∧
    (∀ p, pr.lookup s = some p → 0 < p → tickNewPrice draws pr s ≤ 0 →
        (l.foldl (tickOne draws) (pr, hi, [])).1.lookup s = some 0 ∧
        (l.foldl (tickOne draws) (pr, hi, [])).2.1.lookup s =
          some (((hi.lookup s).getD []) ++ [(0 : ℚ)]) ∧
        s ∈ (l.foldl (tickOne draws) (pr, hi, [])).2.2) ∧
    (∀ p, pr.lookup s = some p → 0 < p → ¬ tickNewPrice draws pr s ≤ 0 →
        (l.foldl (tickOne draws) (pr, hi, [])).1.lookup s = some (tickNewPrice draws pr s) ∧
        (l.foldl (tickOne draws) (pr, hi, [])).2.1.lookup s =
          some (truncate175 (((hi.lookup s).getD []) ++ [tickNewPrice draws pr s])) ∧
        s ∉ (l.foldl (tickOne draws) (pr, hi, [])).2.2) := by
  obtain ⟨l1, l2, rfl⟩ := List.append_of_mem hs
  have hnd1 := List.Nodup.of_append_left hnd
  have htail := List.Nodup.of_append_right hnd
  have hs2 : s ∉ l2 := (List.nodup_cons.mp htail).1
  have hs1 : s ∉ l1 := by
    intro hmem
    exact (List.disjoint_of_nodup_append hnd) hmem (List.mem_cons_self s l2)
  have hX := phase1_preserve draws l1 pr hi [] s hs1
  set X := l1.foldl (tickOne draws) (pr, hi, []) with hXdef
  have hfold : (l1 ++ s :: l2).foldl (tickOne draws) (pr, hi, []) =
      l2.foldl (tickOne draws) (tickOne draws X s) := by
    rw [List.foldl_append, List.foldl_cons]
  refine ⟨?_, ?_, ?_⟩
  · intro p hpr hp
    have hY := tickOne_self_already draws X s p (hX.1.trans hpr) hp
    have hP := phase1_preserve draws l2 X.1 X.2.1 (X.2.2 ++ [s]) s hs2
    rw [hfold, hY]
    refine ⟨hP.1.trans (hX.1.trans hpr), hP.2.1.trans hX.2.1, ?_⟩
    rw [hP.2.2]
    simp
  · intro p hpr hp0 hnp
    have hple : ¬ p ≤ 0 := not_le.mpr hp0
    have hnpX : tickNewPrice draws X.1 s ≤ 0 := by
      rw [tickNewPrice_congr draws hX.1]; exact hnp
    have hY := tickOne_self_bankrupt draws X s p (hX.1.trans hpr) hple hnpX
    have hP := phase1_preserve draws l2 (setk X.1 s 0)
      (setk X.2.1 s (((X.2.1.lookup s).getD []) ++ [(0 : ℚ)])) (X.2.2 ++ [s]) s hs2
    rw [hfold, hY]
    refine ⟨hP.1.trans (lookup_setk_self _ _ _), ?_, ?_⟩
    · rw [hP.2.1, lookup_setk_self, hX.2.1]
    · rw [hP.2.2]
      simp
  · intro p hpr hp0 hnp
    have hple : ¬ p ≤ 0 := not_le.mpr hp0
    have hnpX : ¬ tickNewPrice draws X.1 s ≤ 0 := by
      rw [tickNewPrice_congr draws hX.1]; exact hnp
    have hY := tickOne_self_survive draws X s p (hX.1.trans hpr) hple hnpX
    have hP := phase1_preserve draws l2 (setk X.1 s (tickNewPrice draws X.1 s))
      (setk X.2.1 s (truncate175 (((X.2.1.lookup s).getD []) ++ [tickNewPrice draws X.1 s])))
      X.2.2 s hs2
    rw [hfold, hY]
    have hnpc : tickNewPrice draws X.1 s = tickNewPrice draws pr s :=
      tickNewPrice_congr draws hX.1
    refine ⟨?_, ?_, ?_⟩
    · rw [hP.1, lookup_setk_self, hnpc]
    · rw [hP.2.1, lookup_setk_self, hX.2.1, hnpc]
    · rw [hP.2.2]
      simp [hX.2.2]

/- ### Bankruptcy lemmas -/

/-- Full delisting of a symbol: absent from the price map, history map,
symbol list, and from every user's inventory and purchase-date log. -/
def symbolGone (st : MarketState) (users : UserData) (s : String) : Prop :=
  st.stock_prices.lookup s = none ∧ st.price_history.lookup s = none ∧
  s ∉ st.stock_symbols ∧
  ∀ u ∈ users, u.2.inventory.lookup s = none ∧ u.2.purchase_dates.lookup s = none

theorem holders_of_map_cleanup (users : UserData) {s s' : String} (h : s ≠ s') :
    holders_of (users.map (cleanupUser s')) s = holders_of users s := by
  unfold holders_of
  rw [List.filterMap_map]
  apply List.filterMap_congr
  intro u _
  simp [cleanupUser, lookup_delk_ne _ h]

theorem hb_market_self (st : MarketState) (users : UserData) (symbol : String)
    (hnd : st.stock_symbols.Nodup) :
    (handle_bankruptcy st users symbol).1.stock_prices.lookup symbol = none ∧
    (handle_bankruptcy st users symbol).1.price_history.lookup symbol = none ∧
    symbol ∉ (handle_bankruptcy st users symbol).1.stock_symbols := by
  refine ⟨lookup_delk_self _ _, lookup_delk_self _ _, ?_⟩
  exact hnd.not_mem_erase

theorem hb_gone (st : MarketState) (users : UserData) (symbol : String)
    (hnd : st.stock_symbols.Nodup) :
    symbolGone (handle_bankruptcy st users symbol).1 (handle_bankruptcy st users symbol).2.1
      symbol := by
  refine ⟨lookup_delk_self _ _, lookup_delk_self _ _, hnd.not_mem_erase, ?_⟩
  intro u hu
  simp only [handle_bankruptcy, List.mem_map] at hu
  obtain ⟨v, _, rfl⟩ := hu
  exact ⟨lookup_delk_self _ _, lookup_delk_self _ _⟩

theorem hb_preserves_gone (st : MarketState) (users : UserData) (symbol : String) {s : String}
    (hg : symbolGone st users s) :
    symbolGone (handle_bankruptcy st users symbol).1 (handle_bankruptcy st users symbol).2.1
      s := by
  obtain ⟨hp, hh, hsym, hus⟩ := hg
  refine ⟨?_, ?_, ?_, ?_⟩
  · by_cases he : s = symbol
    · subst he; exact lookup_delk_self _ _
    · exact (lookup_delk_ne _ he).trans hp
  · by_cases he : s = symbol
    · subst he; exact lookup_delk_self _ _
    · exact (lookup_delk_ne _ he).trans hh
  · intro hmem
    exact hsym (List.mem_of_mem_erase hmem)
  · intro u hu
    simp only [handle_bankruptcy, List.mem_map] at hu
    obtain ⟨v, hv, rfl⟩ := hu
    have := hus v hv
    by_cases he : s = symbol
    · subst he
      exact ⟨lookup_delk_self _ _, lookup_delk_self _ _⟩
    · exact ⟨(lookup_delk_ne _ he).trans this.1, (lookup_delk_ne _ he).trans this.2⟩

theorem hb_ne (st : MarketState) (users : UserData) (symbol : String) {s : String}
    (h : s ≠ symbol) :
    (handle_bankruptcy st users symbol).1.stock_prices.lookup s = st.stock_prices.lookup s ∧
    (handle_bankruptcy st users symbol).1.price_history.lookup s =
      st.price_history.lookup s ∧
    (s ∈ (handle_bankruptcy st users symbol).1.stock_symbols ↔ s ∈ st.stock_symbols) ∧
    holders_of (handle_bankruptcy st users symbol).2.1 s = holders_of users s := by
  refine ⟨lookup_delk_ne _ h, lookup_delk_ne _ h, List.mem_erase_of_ne h, ?_⟩
  exact holders_of_map_cleanup users h

theorem hb_symbols_nodup (st : MarketState) (users : UserData) (symbol : String)
    (hnd : st.stock_symbols.Nodup) :
    (handle_bankruptcy st users symbol).1.stock_symbols.Nodup := hnd.erase symbol

theorem bankruptOne_preserves_gone
    (acc : MarketState × UserData × List (String × List (String × Int))) (symbol : String)
    {s : String} (hg : symbolGone acc.1 acc.2.1 s) :
    symbolGone (bankruptOne acc symbol).1 (bankruptOne acc symbol).2.1 s := by
  unfold bankruptOne
  split
  · exact hb_preserves_gone acc.1 acc.2.1 symbol hg
  · exact hg

theorem bankruptOne_nodup
    (acc : MarketState × UserData × List (String × List (String × Int))) (symbol : String)
    (hnd : acc.1.stock_symbols.Nodup) : (bankruptOne acc symbol).1.stock_symbols.Nodup := by
  unfold bankruptOne
  split
  · exact hb_symbols_nodup acc.1 acc.2.1 symbol hnd
  · exact hnd

theorem bankruptOne_ne
    (acc : MarketState × UserData × List (String × List (String × Int))) (symbol : String)
    {s : String} (h : s ≠ symbol) :
    (bankruptOne acc symbol).1.stock_prices.lookup s = acc.1.stock_prices.lookup s ∧
    (bankruptOne acc symbol).1.price_history.lookup s = acc.1.price_history.lookup s ∧
    (s ∈ (bankruptOne acc symbol).1.stock_symbols ↔ s ∈ acc.1.stock_symbols) ∧
    holders_of (bankruptOne acc symbol).2.1 s = holders_of acc.2.1 s ∧
    (bankruptOne acc symbol).2.2.lookup s = acc.2.2.lookup s := by
  unfold bankruptOne
  split
  · have := hb_ne acc.1 acc.2.1 symbol h
    refine ⟨this.1, this.2.1, this.2.2.1, this.2.2.2, ?_⟩
    rw [lookup_append]
    simp [List.lookup, beq_false_of_ne h]
  · exact ⟨rfl, rfl, Iff.rfl, rfl, rfl⟩

theorem phase2_preserve (l : List String) :
    ∀ (acc : MarketState × UserData × List (String × List (String × Int))) (s : String),
      s ∉ l →
    ((l.foldl bankruptOne acc).1.stock_prices.lookup s = acc.1.stock_prices.lookup s ∧
     (l.foldl bankruptOne acc).1.price_history.lookup s = acc.1.price_history.lookup s ∧
     (s ∈ (l.foldl bankruptOne acc).1.stock_symbols ↔ s ∈ acc.1.stock_symbols) ∧
     holders_of (l.foldl bankruptOne acc).2.1 s = holders_of acc.2.1 s ∧
     (l.foldl bankruptOne acc).2.2.lookup s = acc.2.2.lookup s) := by
  induction l with
  | nil => intro acc s _; exact ⟨rfl, rfl, Iff.rfl, rfl, rfl⟩
  | cons a t ih =>
    intro acc s hs
    have hsa : s ≠ a := fun he => hs (he ▸ List.mem_cons_self a t)
    have hst : s ∉ t := fun he => hs (List.mem_cons_of_mem a he)
    have h1 := bankruptOne_ne acc a hsa
    have h2 := ih (bankruptOne acc a) s hst
    simp only [List.foldl_cons]
    exact ⟨h2.1.trans h1.1, h2.2.1.trans h1.2.1, h2.2.2.1.trans h1.2.2.1,
      h2.2.2.2.1.trans h1.2.2.2.1, h2.2.2.2.2.trans h1.2.2.2.2⟩

theorem phase2_gone (l : List String) :
    ∀ (acc : MarketState × UserData × List (String × List (String × Int))) (s : String),
      symbolGone acc.1 acc.2.1 s →
      symbolGone (l.foldl bankruptOne acc).1 (l.foldl bankruptOne acc).2.1 s := by
  induction l with
  | nil => intro acc s hg; exact hg
  | cons a t ih =>
    intro acc s hg
    simp only [List.foldl_cons]
    exact ih (bankruptOne acc a) s (bankruptOne_preserves_gone acc a hg)

theorem phase2_at (l : List String) :
    ∀ (acc : MarketState × UserData × List (String × List (String × Int))) (s : String),
      l.Nodup → s ∈ l → (acc.1.stock_prices.lookup s).isSome = true →
      acc.1.stock_symbols.Nodup → acc.2.2.lookup s = none →
      (symbolGone (l.foldl bankruptOne acc).1 (l.foldl bankruptOne acc).2.1 s ∧
       (l.foldl bankruptOne acc).2.2.lookup s = some (holders_of acc.2.1 s)) := by
  induction l with
  | nil => intro acc s _ hs; exact absurd hs (List.not_mem_nil s)
  | cons a t ih =>
    intro acc s hnd hs hsome hnds hrep
    simp only [List.foldl_cons]
    by_cases he : s = a
    · subst he
      have hstep : bankruptOne acc s =
          (let x := handle_bankruptcy acc.1 acc.2.1 s
           (x.1, x.2.1, acc.2.2 ++ [(s, x.2.2)])) := by
        unfold bankruptOne
        rw [if_pos hsome]
      have hgone : symbolGone (bankruptOne acc s).1 (bankruptOne acc s).2.1 s := by
        rw [hstep]
        exact hb_gone acc.1 acc.2.1 s hnds
      have hst : s ∉ t := (List.nodup_cons.mp hnd).1
      have hrep2 : (bankruptOne acc s).2.2.lookup s = some (holders_of acc.2.1 s) := by
        rw [hstep]
        simp only
        rw [lookup_append, hrep]
        simp [List.lookup, handle_bankruptcy]
      refine ⟨phase2_gone t (bankruptOne acc s) s hgone, ?_⟩
      exact (phase2_preserve t (bankruptOne acc s) s hst).2.2.2.2.trans hrep2
    · have h1 := bankruptOne_ne acc a he
      have hst : s ∈ t := (List.mem_cons.mp hs).resolve_left he
      have h2 := ih (bankruptOne acc a) s (List.nodup_cons.mp hnd).2 hst
        (by rw [h1.1]; exact hsome) (bankruptOne_nodup acc a hnds)
        (by rw [h1.2.2.2.2]; exact hrep)
      exact ⟨h2.1, h2.2.trans (by rw [h1.2.2.2.1])⟩

/- ### Further structural lemmas -/

theorem cmc_market_fields (st : MarketState) (now : ℚ) (d : RegimeDraws) (i : Fin 5) :
    (check_market_condition st now d i).stock_symbols = st.stock_symbols ∧
    (check_market_condition st now d i).stock_prices = st.stock_prices ∧
    (check_market_condition st now d i).price_history = st.price_history ∧
    (check_market_condition st now d i).user_to_ticker = st.user_to_ticker := by
  unfold check_market_condition
  cases h : st.last_condition_change with
  | none => exact ⟨rfl, rfl, rfl, rfl⟩
  | some t =>
    by_cases hc : (now - t) / 3600 < 9
    · simp [hc]
    · simp [hc, applyRegimeChoice]

theorem phase2_symbols_subset (l : List String) :
    ∀ (acc : MarketState × UserData × List (String × List (String × Int))) (s : String),
      s ∈ (l.foldl bankruptOne acc).1.stock_symbols → s ∈ acc.1.stock_symbols := by
  induction l with
  | nil => intro acc s h; exact h
  | cons a t ih =>
    intro acc s h
    have h2 := ih (bankruptOne acc a) s h
    revert h2
    unfold bankruptOne
    split
    · exact fun h2 => List.mem_of_mem_erase h2
    · exact fun h2 => h2

theorem lookup_mem {α : Type} (m : List (String × α)) (k : String) (v : α)
    (h : m.lookup k = some v) : (k, v) ∈ m := by
  induction m with
  | nil => simp [List.lookup] at h
  | cons hd t ih =>
    obtain ⟨a, b⟩ := hd
    by_cases he : k = a
    · subst he
      simp [List.lookup] at h
      simp [h]
    · simp only [List.lookup, beq_false_of_ne he] at h
      exact List.mem_cons_of_mem _ (ih h)

theorem lookup_of_mem_keys_nodup {α : Type} (m : List (String × α)) (k : String) (v : α)
    (hnd : (m.map Prod.fst).Nodup) (h : (k, v) ∈ m) : m.lookup k = some v := by
  induction m with
  | nil => simp at h
  | cons hd t ih =>
    obtain ⟨a, b⟩ := hd
    rcases List.mem_cons.mp h with he | hm
    · obtain ⟨rfl, rfl⟩ := Prod.mk.injEq .. ▸ he
      simp_all [List.lookup]
    · have hka : k ≠ a := by
        rintro rfl
        exact (List.nodup_cons.mp hnd).1 (List.mem_map.mpr ⟨(k, v), hm, rfl⟩)
      simp only [List.lookup, beq_false_of_ne hka]
      exact ih (List.nodup_cons.mp hnd).2 hm

theorem sweepOne_preserves_gone (acc : MarketState × UserData) (symbol : String) {s : String}
    (hg : symbolGone acc.1 acc.2 s) : symbolGone (sweepOne acc symbol).1 (sweepOne acc symbol).2 s :=
  hb_preserves_gone acc.1 acc.2 symbol hg

theorem sweep_gone_fold (l : List String) :
    ∀ (acc : MarketState × UserData) (s : String), symbolGone acc.1 acc.2 s →
      symbolGone (l.foldl sweepOne acc).1 (l.foldl sweepOne acc).2 s := by
  induction l with
  | nil => intro acc s hg; exact hg
  | cons a t ih =>
    intro acc s hg
    exact ih (sweepOne acc a) s (sweepOne_preserves_gone acc a hg)

theorem sweep_nodup (l : List String) :
    ∀ (acc : MarketState × UserData), acc.1.stock_symbols.Nodup →
      (l.foldl sweepOne acc).1.stock_symbols.Nodup := by
  induction l with
  | nil => intro acc h; exact h
  | cons a t ih =>
    intro acc h
    exact ih (sweepOne acc a) (hb_symbols_nodup acc.1 acc.2 a h)

theorem sweep_at (l : List String) :
    ∀ (acc : MarketState × UserData) (s : String), acc.1.stock_symbols.Nodup → s ∈ l →
      symbolGone (l.foldl sweepOne acc).1 (l.foldl sweepOne acc).2 s := by
  induction l with
  | nil => intro acc s _ hs; exact absurd hs (List.not_mem_nil s)
  | cons a t ih =>
    intro acc s hnd hs
    by_cases he : s = a
    · subst he
      exact sweep_gone_fold t (sweepOne acc s) s (hb_gone acc.1 acc.2 s hnd)
    · exact ih (sweepOne acc a) s (hb_symbols_nodup acc.1 acc.2 a hnd)
        ((List.mem_cons.mp hs).resolve_left he)

theorem sweep_preserve (l : List String) :
    ∀ (acc : MarketState × UserData) (s : String), s ∉ l →
      ((l.foldl sweepOne acc).1.stock_prices.lookup s = acc.1.stock_prices.lookup s ∧
       (l.foldl sweepOne acc).1.price_history.lookup s = acc.1.price_history.lookup s ∧
       (s ∈ (l.foldl sweepOne acc).1.stock_symbols ↔ s ∈ acc.1.stock_symbols)) := by
  induction l with
  | nil => intro acc s _; exact ⟨rfl, rfl, Iff.rfl⟩
  | cons a t ih =>
    intro acc s hs
    have hsa : s ≠ a := fun he => hs (he ▸ List.mem_cons_self a t)
    have hst : s ∉ t := fun he => hs (List.mem_cons_of_mem a he)
    have h1 := hb_ne acc.1 acc.2 a hsa
    have h2 := ih (sweepOne acc a) s hst
    exact ⟨h2.1.trans h1.1, h2.2.1.trans h1.2.1, h2.2.2.trans h1.2.2.1⟩

theorem sweep_symbols_subset (l : List String) :
    ∀ (acc : MarketState × UserData) (s : String),
      s ∈ (l.foldl sweepOne acc).1.stock_symbols → s ∈ acc.1.stock_symbols := by
  induction l with
  | nil => intro acc s h; exact h
  | cons a t ih =>
    intro acc s h
    exact List.mem_of_mem_erase (ih (sweepOne acc a) s h)

/- ### Claim theorems -/

/-- C1: In one `update_prices` tick, every listed symbol with current price
p > 0 receives a change drawn from the current regime interval and a jitter
variation = change * u with u in [-0.2, 0.2], and the candidate price is
newPrice = round(p + change + variation, 2). If newPrice ≤ 0, the loop clamps
the stored price to exactly 0 and appends 0 to the history, queues the symbol,
and after all symbols are processed the bankruptcy pass removes it everywhere
and the returned report maps it to its (userId, sharesLost) holders. Otherwise
the new price is committed, appended to the history, the history is truncated
to the most recent 175 entries, and the symbol stays out of the report. The
report is empty when no symbol is queued. -/
theorem update_prices_spec (st : MarketState) (users : UserData) (now : ℚ) (d : RegimeDraws)
    (i : Fin 5) (draws : String → ℚ × ℚ) (hwf : WFMarket st)
    (hdraw : ∀ s, (check_market_condition st now d i).current_min_change ≤ (draws s).1 ∧
        (draws s).1 ≤ (check_market_condition st now d i).current_max_change ∧
        -(1/5) ≤ (draws s).2 ∧ (draws s).2 ≤ 1/5) :
    (∀ s ∈ st.stock_symbols, ∀ p, st.stock_prices.lookup s = some p → 0 < p →
      (round2 (p + ((draws s).1 + (draws s).1 * (draws s).2)) ≤ 0 →
        (st.stock_symbols.foldl (tickOne draws)
            (st.stock_prices, st.price_history, [])).1.lookup s = some 0 ∧
        (st.stock_symbols.foldl (tickOne draws)
            (st.stock_prices, st.price_history, [])).2.1.lookup s =
          some (((st.price_history.lookup s).getD []) ++ [(0 : ℚ)]) ∧
        s ∈ (st.stock_symbols.foldl (tickOne draws)
            (st.stock_prices, st.price_history, [])).2.2 ∧
        symbolGone (update_prices st users now d i draws).1
          (update_prices st users now d i draws).2.1 s ∧
        (update_prices st users now d i draws).2.2.lookup s = some (holders_of users s)) ∧
      (0 < round2 (p + ((draws s).1 + (draws s).1 * (draws s).2)) →
        (update_prices st users now d i draws).1.stock_prices.lookup s =
          some (round2 (p + ((draws s).1 + (draws s).1 * (draws s).2))) ∧
        (update_prices st users now d i draws).1.price_history.lookup s =
          some (truncate175 (((st.price_history.lookup s).getD []) ++
            [round2 (p + ((draws s).1 + (draws s).1 * (draws s).2))])) ∧
        s ∈ (update_prices st users now d i draws).1.stock_symbols ∧
        (update_prices st users now d i draws).2.2.lookup s = none)) ∧
    ((∀ s ∈ st.stock_symbols, tickQueued draws st.stock_prices s = false) →
      (update_prices st users now d i draws).2.2 = []) := by
  obtain ⟨hnd, hwp, hwh⟩ := hwf
  obtain ⟨hcs, hcp, hch, hcu⟩ := cmc_market_fields st now d i
  set st0 := check_market_condition st now d i with hst0
  set P1 := st.stock_symbols.foldl (tickOne draws) (st.stock_prices, st.price_history, [])
    with hP1
  have hup : update_prices st users now d i draws =
      P1.2.2.foldl bankruptOne
        ({ st0 with stock_prices := P1.1, price_history := P1.2.1 }, users, []) := by
    simp only [update_prices, ← hst0]
    rw [hcs, hcp, hch, ← hP1]
  have hbkchar := phase1_bk draws st.stock_symbols st.stock_prices st.price_history [] hnd
  rw [List.nil_append] at hbkchar
  have hbknd : P1.2.2.Nodup := by rw [hbkchar]; exact hnd.filter _
  have hst1nd : ({ st0 with stock_prices := P1.1, price_history := P1.2.1 } : MarketState).stock_symbols.Nodup := by
    show st0.stock_symbols.Nodup
    rw [hcs]; exact hnd
  constructor
  · intro s hs p hpr hp0
    have hchar := phase1_at draws st.stock_symbols st.stock_prices st.price_history hnd hs
    have hnpeq : tickNewPrice draws st.stock_prices s =
        round2 (p + ((draws s).1 + (draws s).1 * (draws s).2)) := by
      unfold tickNewPrice
      rw [hpr]
      rfl
    constructor
    · intro hle
      have hq := hchar.2.1 p hpr hp0 (by rw [hnpeq]; exact hle)
      refine ⟨hq.1, hq.2.1, hq.2.2, ?_, ?_⟩
      · rw [hup]
        exact (phase2_at P1.2.2 ({ st0 with stock_prices := P1.1, price_history := P1.2.1 },
          users, []) s hbknd hq.2.2 (by show (P1.1.lookup s).isSome = true; rw [hq.1]; rfl)
          hst1nd rfl).1
      · rw [hup]
        exact (phase2_at P1.2.2 ({ st0 with stock_prices := P1.1, price_history := P1.2.1 },
          users, []) s hbknd hq.2.2 (by show (P1.1.lookup s).isSome = true; rw [hq.1]; rfl)
          hst1nd rfl).2
    · intro hgt
      have hq := hchar.2.2 p hpr hp0 (by rw [hnpeq]; exact not_le.mpr hgt)
      have hpres := phase2_preserve P1.2.2
        ({ st0 with stock_prices := P1.1, price_history := P1.2.1 }, users, []) s hq.2.2
      rw [hup]
      refine ⟨?_, ?_, ?_, ?_⟩
      · rw [hpres.1]
        show P1.1.lookup s = _
        rw [hq.1, hnpeq]
      · rw [hpres.2.1]
        show P1.2.1.lookup s = _
        rw [hq.2.1, hnpeq]
      · rw [hpres.2.2.1]
        show s ∈ st0.stock_symbols
        rw [hcs]; exact hs
      · exact hpres.2.2.2.2
  · intro hnone
    have : st.stock_symbols.filter (tickQueued draws st.stock_prices) = [] :=
      List.filter_eq_nil_iff.mpr (fun a ha => by rw [hnone a ha]; exact Bool.false_ne_true)
    rw [hup, hbkchar, this]
    rfl

/-- C2: After a tick, every still-listed symbol has a positive price; any
symbol the tick finds at price ≤ 0 or drives to a rounded price ≤ 0 is
removed, within that same tick, from the symbol list, the price map, the
history map, and every holder's inventory (and purchase-date log). The
emergency sweep gives the same guarantee for every symbol whose stored price
is ≤ 0, and afterwards every still-listed symbol has a positive price. -/
theorem tick_invariant (st : MarketState) (users : UserData) (now : ℚ) (d : RegimeDraws)
    (i : Fin 5) (draws : String → ℚ × ℚ) (hwf : WFMarket st) :
    (∀ s ∈ (update_prices st users now d i draws).1.stock_symbols,
       ∃ p, (update_prices st users now d i draws).1.stock_prices.lookup s = some p ∧
         0 < p) ∧
    (∀ s ∈ st.stock_symbols, ∀ p, st.stock_prices.lookup s = some p →
       (p ≤ 0 ∨ tickNewPrice draws st.stock_prices s ≤ 0) →
       symbolGone (update_prices st users now d i draws).1
         (update_prices st users now d i draws).2.1 s) ∧
    ((st.stock_prices.map Prod.fst).Nodup →
      (∀ s p, st.stock_prices.lookup s = some p → p ≤ 0 →
        symbolGone (handle_emergency_bankruptcies st users).1
          (handle_emergency_bankruptcies st users).2.1 s) ∧
      (∀ s ∈ (handle_emergency_bankruptcies st users).1.stock_symbols,
        ∃ p, (handle_emergency_bankruptcies st users).1.stock_prices.lookup s = some p ∧
          0 < p)) := by
  obtain ⟨hnd, hwp, hwh⟩ := hwf
  obtain ⟨hcs, hcp, hch, hcu⟩ := cmc_market_fields st now d i
  set st0 := check_market_condition st now d i with hst0
  set P1 := st.stock_symbols.foldl (tickOne draws) (st.stock_prices, st.price_history, [])
    with hP1
  have hup : update_prices st users now d i draws =
      P1.2.2.foldl bankruptOne
        ({ st0 with stock_prices := P1.1, price_history := P1.2.1 }, users, []) := by
    simp only [update_prices, ← hst0]
    rw [hcs, hcp, hch, ← hP1]
  have hbkchar := phase1_bk draws st.stock_symbols st.stock_prices st.price_history [] hnd
  rw [List.nil_append] at hbkchar
  have hbknd : P1.2.2.Nodup := by rw [hbkchar]; exact hnd.filter _
  have hst1nd : ({ st0 with stock_prices := P1.1, price_history := P1.2.1 } : MarketState).stock_symbols.Nodup := by
    show st0.stock_symbols.Nodup
    rw [hcs]; exact hnd
  have hqueued_gone : ∀ s ∈ st.stock_symbols, ∀ p, st.stock_prices.lookup s = some p →
      (p ≤ 0 ∨ tickNewPrice draws st.stock_prices s ≤ 0) →
      symbolGone (update_prices st users now d i draws).1
        (update_prices st users now d i draws).2.1 s := by
    intro s hs p hpr hcond
    have hchar := phase1_at draws st.stock_symbols st.stock_prices st.price_history hnd hs
    have hstep : P1.1.lookup s ≠ none ∧ s ∈ P1.2.2 := by
      by_cases hp : p ≤ 0
      · have hq := hchar.1 p hpr hp
        exact ⟨by rw [hq.1]; exact Option.some_ne_none p, hq.2.2⟩
      · have hq := hchar.2.1 p hpr (not_le.mp hp) (hcond.resolve_left hp)
        exact ⟨by rw [hq.1]; exact Option.some_ne_none 0, hq.2.2⟩
    rw [hup]
    exact (phase2_at P1.2.2 ({ st0 with stock_prices := P1.1, price_history := P1.2.1 },
      users, []) s hbknd hstep.2
      (by show (P1.1.lookup s).isSome = true; exact Option.isSome_iff_ne_none.mpr hstep.1)
      hst1nd rfl).1
  refine ⟨?_, hqueued_gone, ?_⟩
  · intro s hsmem
    have hsst : s ∈ st.stock_symbols := by
      have := phase2_symbols_subset P1.2.2
        ({ st0 with stock_prices := P1.1, price_history := P1.2.1 }, users, []) s
        (by rw [hup] at hsmem; exact hsmem)
      rw [show ({ st0 with stock_prices := P1.1, price_history := P1.2.1 } :
        MarketState).stock_symbols = st0.stock_symbols from rfl, hcs] at this
      exact this
    obtain ⟨p, hpr⟩ := Option.isSome_iff_exists.mp (hwp s hsst)
    by_cases hq : p ≤ 0 ∨ tickNewPrice draws st.stock_prices s ≤ 0
    · exact absurd hsmem (hqueued_gone s hsst p hpr hq).2.2.1
    · push_neg at hq
      have hchar := (phase1_at draws st.stock_symbols st.stock_prices st.price_history hnd
        hsst).2.2 p hpr hq.1 (not_le.mpr hq.2)
      have hpres := phase2_preserve P1.2.2
        ({ st0 with stock_prices := P1.1, price_history := P1.2.1 }, users, []) s hchar.2.2
      refine ⟨tickNewPrice draws st.stock_prices s, ?_, hq.2⟩
      rw [hup, hpres.1]
      show P1.1.lookup s = _
      exact hchar.1
  · intro hkeys
    have hsweep_gone : ∀ s p, st.stock_prices.lookup s = some p → p ≤ 0 →
        symbolGone (handle_emergency_bankruptcies st users).1
          (handle_emergency_bankruptcies st users).2.1 s := by
      intro s p hpr hp
      have hmem : s ∈ (st.stock_prices.filter (fun q => decide (q.2 ≤ 0))).map
          (fun q => q.1) :=
        List.mem_map.mpr ⟨(s, p), List.mem_filter.mpr ⟨lookup_mem _ _ _ hpr,
          decide_eq_true hp⟩, rfl⟩
      have hne : ((st.stock_prices.filter (fun q => decide (q.2 ≤ 0))).map
          (fun q => q.1)).isEmpty = false := by
        cases hl : (st.stock_prices.filter (fun q => decide (q.2 ≤ 0))).map (fun q => q.1) with
        | nil => rw [hl] at hmem; exact absurd hmem (List.not_mem_nil s)
        | cons a t => rfl
      unfold handle_emergency_bankruptcies
      simp only [hne, Bool.false_eq_true, if_false]
      exact sweep_at _ (st, users) s hnd hmem
    refine ⟨hsweep_gone, ?_⟩
    intro s hsmem
    by_cases hemp : ((st.stock_prices.filter (fun q => decide (q.2 ≤ 0))).map
        (fun q => q.1)).isEmpty = true
    · have hfin : handle_emergency_bankruptcies st users = (st, users, false) := by
        unfold handle_emergency_bankruptcies
        simp only [hemp, if_true]
      rw [hfin] at hsmem ⊢
      obtain ⟨p, hpr⟩ := Option.isSome_iff_exists.mp (hwp s hsmem)
      refine ⟨p, hpr, ?_⟩
      by_contra hple
      have hmf : (s, p) ∈ st.stock_prices.filter (fun q => decide (q.2 ≤ 0)) :=
        List.mem_filter.mpr ⟨lookup_mem _ _ _ hpr, decide_eq_true (not_lt.mp hple)⟩
      have hmm : s ∈ (st.stock_prices.filter (fun q => decide (q.2 ≤ 0))).map
          (fun q => q.1) := List.mem_map.mpr ⟨(s, p), hmf, rfl⟩
      rw [List.isEmpty_iff] at hemp
      rw [hemp] at hmm
      exact absurd hmm (List.not_mem_nil s)
    · have hne : ((st.stock_prices.filter (fun q => decide (q.2 ≤ 0))).map
          (fun q => q.1)).isEmpty = false := by
        cases hval : ((st.stock_prices.filter (fun q => decide (q.2 ≤ 0))).map
          (fun q => q.1)).isEmpty
        · rfl
        · exact absurd hval hemp
      have hfin : handle_emergency_bankruptcies st users =
          ((((st.stock_prices.filter (fun q => decide (q.2 ≤ 0))).map
              (fun q => q.1)).foldl sweepOne (st, users)).1,
           (((st.stock_prices.filter (fun q => decide (q.2 ≤ 0))).map
              (fun q => q.1)).foldl sweepOne (st, users)).2, true) := by
        unfold handle_emergency_bankruptcies
        simp only [hne, Bool.false_eq_true, if_false]
      rw [hfin] at hsmem ⊢
      have hsst : s ∈ st.stock_symbols :=
        sweep_symbols_subset _ (st, users) s hsmem
      obtain ⟨p, hpr⟩ := Option.isSome_iff_exists.mp (hwp s hsst)
      by_cases hple : p ≤ 0
      · exfalso
        have hmem : s ∈ (st.stock_prices.filter (fun q => decide (q.2 ≤ 0))).map
            (fun q => q.1) :=
          List.mem_map.mpr ⟨(s, p), List.mem_filter.mpr ⟨lookup_mem _ _ _ hpr,
            decide_eq_true hple⟩, rfl⟩
        exact (sweep_at _ (st, users) s hnd hmem).2.2.1 hsmem
      · have hnotmem : s ∉ (st.stock_prices.filter (fun q => decide (q.2 ≤ 0))).map
            (fun q => q.1) := by
          intro hmem
          obtain ⟨q, hq, hq1⟩ := List.mem_map.mp hmem
          have hqm := List.mem_filter.mp hq
          have hlq : st.stock_prices.lookup s = some q.2 := by
            apply lookup_of_mem_keys_nodup _ _ _ hkeys
            rw [← hq1]
            exact hqm.1
          rw [hpr] at hlq
          obtain rfl : p = q.2 := Option.some.injEq .. ▸ hlq
          exact hple (of_decide_eq_true hqm.2)
        have hpres := sweep_preserve _ (st, users) s hnotmem
        exact ⟨p, hpres.1.trans hpr, not_le.mp hple⟩

/- ### Concrete demonstration data for witnesses -/

/-- A small concrete market: $AAA is about to go bankrupt, $BBB is healthy. -/
def demoMarket : MarketState :=
  ⟨["$AAA", "$BBB"], [("u1", "$AAA")], [("$AAA", 1/2), ("$BBB", 50)],
   [("$AAA", [1/2]), ("$BBB", [50])], "stable", -3, 3, some 0⟩

/-- Two users holding shares of the demo stocks. -/
def demoUsers : UserData :=
  [("u1", ⟨50, [("$AAA", 3), ("$BBB", 2)], [("$AAA", ["2025-01-01"])], none⟩),
   ("u2", ⟨20, [("$AAA", 1)], [], none⟩)]

/-- Interval draws for the candidate regimes (witness data). -/
def demoRegime : RegimeDraws := ⟨-3, 1, -1, 3, -5, 5, -2, 2, -10, -5⟩

/-- Every symbol draws change -1 with zero jitter. -/
def demoDraws : String → ℚ × ℚ := fun _ => (-1, 0)

theorem demoMarket_wf : WFMarket demoMarket := by
  refine ⟨by decide, ?_, ?_⟩ <;> decide

theorem demoDraws_in_range : ∀ s,
    (check_market_condition demoMarket 0 demoRegime ⟨3, by norm_num⟩).current_min_change ≤
      (demoDraws s).1 ∧
    (demoDraws s).1 ≤
      (check_market_condition demoMarket 0 demoRegime ⟨3, by norm_num⟩).current_max_change ∧
    -(1/5) ≤ (demoDraws s).2 ∧ (demoDraws s).2 ≤ 1/5 := by
  intro s
  norm_num [check_market_condition, demoMarket, demoDraws]

theorem update_prices_spec_witness :
    WFMarket demoMarket ∧
    (∀ s, (check_market_condition demoMarket 0 demoRegime ⟨3, by norm_num⟩).current_min_change ≤
        (demoDraws s).1 ∧
      (demoDraws s).1 ≤
        (check_market_condition demoMarket 0 demoRegime ⟨3, by norm_num⟩).current_max_change ∧
      -(1/5) ≤ (demoDraws s).2 ∧ (demoDraws s).2 ≤ 1/5) ∧
    ((∀ s ∈ demoMarket.stock_symbols, ∀ p, demoMarket.stock_prices.lookup s = some p → 0 < p →
      (round2 (p + ((demoDraws s).1 + (demoDraws s).1 * (demoDraws s).2)) ≤ 0 →
        (demoMarket.stock_symbols.foldl (tickOne demoDraws)
            (demoMarket.stock_prices, demoMarket.price_history, [])).1.lookup s = some 0 ∧
        (demoMarket.stock_symbols.foldl (tickOne demoDraws)
            (demoMarket.stock_prices, demoMarket.price_history, [])).2.1.lookup s =
          some (((demoMarket.price_history.lookup s).getD []) ++ [(0 : ℚ)]) ∧
        s ∈ (demoMarket.stock_symbols.foldl (tickOne demoDraws)
            (demoMarket.stock_prices, demoMarket.price_history, [])).2.2 ∧
        symbolGone (update_prices demoMarket demoUsers 0 demoRegime ⟨3, by norm_num⟩
            demoDraws).1
          (update_prices demoMarket demoUsers 0 demoRegime ⟨3, by norm_num⟩ demoDraws).2.1 s ∧
        (update_prices demoMarket demoUsers 0 demoRegime ⟨3, by norm_num⟩
            demoDraws).2.2.lookup s = some (holders_of demoUsers s)) ∧
      (0 < round2 (p + ((demoDraws s).1 + (demoDraws s).1 * (demoDraws s).2)) →
        (update_prices demoMarket demoUsers 0 demoRegime ⟨3, by norm_num⟩
            demoDraws).1.stock_prices.lookup s =
          some (round2 (p + ((demoDraws s).1 + (demoDraws s).1 * (demoDraws s).2))) ∧
        (update_prices demoMarket demoUsers 0 demoRegime ⟨3, by norm_num⟩
            demoDraws).1.price_history.lookup s =
          some (truncate175 (((demoMarket.price_history.lookup s).getD []) ++
            [round2 (p + ((demoDraws s).1 + (demoDraws s).1 * (demoDraws s).2))])) ∧
        s ∈ (update_prices demoMarket demoUsers 0 demoRegime ⟨3, by norm_num⟩
            demoDraws).1.stock_symbols ∧
        (update_prices demoMarket demoUsers 0 demoRegime ⟨3, by norm_num⟩
            demoDraws).2.2.lookup s = none)) ∧
    ((∀ s ∈ demoMarket.stock_symbols, tickQueued demoDraws demoMarket.stock_prices s = false) →
      (update_prices demoMarket demoUsers 0 demoRegime ⟨3, by norm_num⟩
        demoDraws).2.2 = [])) :=
  ⟨demoMarket_wf, demoDraws_in_range,
   update_prices_spec demoMarket demoUsers 0 demoRegime ⟨3, by norm_num⟩ demoDraws
     demoMarket_wf demoDraws_in_range⟩

theorem tick_invariant_witness :
    WFMarket demoMarket ∧
    ((∀ s ∈ (update_prices demoMarket demoUsers 0 demoRegime ⟨3, by norm_num⟩
        demoDraws).1.stock_symbols,
       ∃ p, (update_prices demoMarket demoUsers 0 demoRegime ⟨3, by norm_num⟩
           demoDraws).1.stock_prices.lookup s = some p ∧ 0 < p) ∧
    (∀ s ∈ demoMarket.stock_symbols, ∀ p, demoMarket.stock_prices.lookup s = some p →
       (p ≤ 0 ∨ tickNewPrice demoDraws demoMarket.stock_prices s ≤ 0) →
       symbolGone (update_prices demoMarket demoUsers 0 demoRegime ⟨3, by norm_num⟩
           demoDraws).1
         (update_prices demoMarket demoUsers 0 demoRegime ⟨3, by norm_num⟩
           demoDraws).2.1 s) ∧
    ((demoMarket.stock_prices.map Prod.fst).Nodup →
      (∀ s p, demoMarket.stock_prices.lookup s = some p → p ≤ 0 →
        symbolGone (handle_emergency_bankruptcies demoMarket demoUsers).1
          (handle_emergency_bankruptcies demoMarket demoUsers).2.1 s) ∧
      (∀ s ∈ (handle_emergency_bankruptcies demoMarket demoUsers).1.stock_symbols,
        ∃ p, (handle_emergency_bankruptcies demoMarket
            demoUsers).1.stock_prices.lookup s = some p ∧ 0 < p))) :=
  ⟨demoMarket_wf,
   tick_invariant demoMarket demoUsers 0 demoRegime ⟨3, by norm_num⟩ demoDraws demoMarket_wf⟩

/- ### Idempotence support -/

theorem delk_delk {α : Type} (m : List (String × α)) (k : String) :
    delk (delk m k) k = delk m k :=
  delk_of_lookup_none _ _ (lookup_delk_self m k)

theorem mem_delk {α : Type} (m : List (String × α)) (k : String) (r : String × α)
    (h : r ∈ delk m k) : r ∈ m ∧ r.1 ≠ k := by
  induction m with
  | nil => simp [delk] at h
  | cons hd t ih =>
    obtain ⟨a, b⟩ := hd
    by_cases hk : a = k
    · subst hk
      simp only [delk, if_pos rfl] at h
      exact ⟨List.mem_cons_of_mem _ (ih h).1, (ih h).2⟩
    · simp only [delk, if_neg hk] at h
      rcases List.mem_cons.mp h with he | hm
      · subst he
        exact ⟨List.mem_cons_self _ _, hk⟩
      · exact ⟨List.mem_cons_of_mem _ (ih hm).1, (ih hm).2⟩

theorem holders_of_eq_nil (users : UserData) (symbol : String)
    (h : ∀ u ∈ users, u.2.inventory.lookup symbol = none) :
    holders_of users symbol = [] := by
  unfold holders_of
  rw [List.filterMap_eq_nil_iff]
  intro u hu
  rw [h u hu]
  rfl

theorem hb_creator_cleared (st : MarketState) (users : UserData) (symbol : String)
    (hcr : (st.user_to_ticker.filter (fun p => decide (p.2 = symbol))).length ≤ 1) :
    (handle_bankruptcy st users symbol).1.user_to_ticker.find?
      (fun p => decide (p.2 = symbol)) = none := by
  show (match (st.user_to_ticker.find? (fun p : String × String => decide (p.2 = symbol))).map
      (fun p : String × String => p.1) with
    | some uid => delk st.user_to_ticker uid
    | none => st.user_to_ticker).find? (fun p : String × String => decide (p.2 = symbol)) = none
  cases hf : st.user_to_ticker.find? (fun p => decide (p.2 = symbol)) with
  | none => exact hf
  | some q =>
    rw [List.find?_eq_none]
    intro r hr hrsym
    have hq2b := @List.find?_some (String × String)
      (fun p => decide (p.2 = symbol)) q st.user_to_ticker hf
    have hq2 : q.2 = symbol := of_decide_eq_true hq2b
    have hqmem : q ∈ st.user_to_ticker := List.mem_of_find?_eq_some hf
    have hrd := mem_delk st.user_to_ticker q.1 r hr
    have hqf : q ∈ st.user_to_ticker.filter (fun p => decide (p.2 = symbol)) :=
      List.mem_filter.mpr ⟨hqmem, decide_eq_true hq2⟩
    have hrf : r ∈ st.user_to_ticker.filter (fun p => decide (p.2 = symbol)) :=
      List.mem_filter.mpr ⟨hrd.1, hrsym⟩
    cases hfl : st.user_to_ticker.filter (fun p => decide (p.2 = symbol)) with
    | nil => rw [hfl] at hqf; exact absurd hqf (List.not_mem_nil q)
    | cons a t =>
      cases t with
      | nil =>
        rw [hfl] at hqf hrf
        have hqa : q = a := by
          rcases List.mem_cons.mp hqf with he | hm
          · exact he
          · exact absurd hm (List.not_mem_nil q)
        have hra : r = a := by
          rcases List.mem_cons.mp hrf with he | hm
          · exact he
          · exact absurd hm (List.not_mem_nil r)
        exact hrd.2 (by rw [hra, ← hqa])
      | cons b t2 =>
        rw [hfl] at hcr
        simp at hcr

theorem cleanupUser_idem (symbol : String) (u : String × UserRec) :
    cleanupUser symbol (cleanupUser symbol u) = cleanupUser symbol u := by
  simp [cleanupUser, delk_delk]

/-- C4: `handle_bankruptcy` is total and idempotent. On any state — including
a partial one where the symbol is already missing from some of the maps — it
removes whatever remains of the symbol from the price map, history map, symbol
list, creator mapping, and every user's inventory and purchase-date log,
returning the (userId, sharesLost) entries it removed, all without raising.
Running it again on the already-delisted symbol is a no-op that changes no
state and reports no holders. -/
theorem handle_bankruptcy_idempotent (st : MarketState) (users : UserData) (symbol : String)
    (hnd : st.stock_symbols.Nodup)
    (hcr : (st.user_to_ticker.filter (fun p => decide (p.2 = symbol))).length ≤ 1) :
    ((handle_bankruptcy st users symbol).1.stock_prices.lookup symbol = none ∧
     (handle_bankruptcy st users symbol).1.price_history.lookup symbol = none ∧
     symbol ∉ (handle_bankruptcy st users symbol).1.stock_symbols ∧
     (handle_bankruptcy st users symbol).1.user_to_ticker.find?
       (fun p => decide (p.2 = symbol)) = none ∧
     (∀ u ∈ (handle_bankruptcy st users symbol).2.1,
       u.2.inventory.lookup symbol = none ∧ u.2.purchase_dates.lookup symbol = none) ∧
     (handle_bankruptcy st users symbol).2.2 = holders_of users symbol) ∧
    handle_bankruptcy (handle_bankruptcy st users symbol).1
        (handle_bankruptcy st users symbol).2.1 symbol =
      ((handle_bankruptcy st users symbol).1, (handle_bankruptcy st users symbol).2.1, []) := by
  have hg := hb_gone st users symbol hnd
  have hfind := hb_creator_cleared st users symbol hcr
  refine ⟨⟨hg.1, hg.2.1, hg.2.2.1, hfind, hg.2.2.2, rfl⟩, ?_⟩
  have husers : (handle_bankruptcy st users symbol).2.1 = users.map (cleanupUser symbol) := rfl
  have hann : holders_of (handle_bankruptcy st users symbol).2.1 symbol = [] :=
    holders_of_eq_nil _ _ (fun u hu => (hg.2.2.2 u hu).1)
  show (_, _, _) = (_, _, _)
  refine congrArg₂ Prod.mk ?_ (congrArg₂ Prod.mk ?_ ?_)
  · show ({ (handle_bankruptcy st users symbol).1 with
        stock_prices := delk (handle_bankruptcy st users symbol).1.stock_prices symbol,
        price_history := delk (handle_bankruptcy st users symbol).1.price_history symbol,
        stock_symbols := (handle_bankruptcy st users symbol).1.stock_symbols.erase symbol,
        user_to_ticker := match ((handle_bankruptcy st users
            symbol).1.user_to_ticker.find? (fun p => decide (p.2 = symbol))).map
            (fun p => p.1) with
          | some uid => delk (handle_bankruptcy st users symbol).1.user_to_ticker uid
          | none => (handle_bankruptcy st users symbol).1.user_to_ticker } : MarketState) =
      (handle_bankruptcy st users symbol).1
    rw [hfind]
    have h1 : delk (handle_bankruptcy st users symbol).1.stock_prices symbol =
        (handle_bankruptcy st users symbol).1.stock_prices :=
      delk_of_lookup_none _ _ hg.1
    have h2 : delk (handle_bankruptcy st users symbol).1.price_history symbol =
        (handle_bankruptcy st users symbol).1.price_history :=
      delk_of_lookup_none _ _ hg.2.1
    have h3 : (handle_bankruptcy st users symbol).1.stock_symbols.erase symbol =
        (handle_bankruptcy st users symbol).1.stock_symbols :=
      List.erase_of_not_mem hg.2.2.1
    rw [h1, h2, h3]
    rfl
  · show (handle_bankruptcy st users symbol).2.1.map (cleanupUser symbol) =
      (handle_bankruptcy st users symbol).2.1
    rw [husers, List.map_map]
    exact List.map_congr_left (fun u _ => cleanupUser_idem symbol u)
  · exact hann

theorem handle_bankruptcy_idempotent_witness :
    demoMarket.stock_symbols.Nodup ∧
    (demoMarket.user_to_ticker.filter (fun p => decide (p.2 = "$AAA"))).length ≤ 1 ∧
    (((handle_bankruptcy demoMarket demoUsers "$AAA").1.stock_prices.lookup "$AAA" = none ∧
      (handle_bankruptcy demoMarket demoUsers "$AAA").1.price_history.lookup "$AAA" = none ∧
      "$AAA" ∉ (handle_bankruptcy demoMarket demoUsers "$AAA").1.stock_symbols ∧
      (handle_bankruptcy demoMarket demoUsers "$AAA").1.user_to_ticker.find?
        (fun p => decide (p.2 = "$AAA")) = none ∧
      (∀ u ∈ (handle_bankruptcy demoMarket demoUsers "$AAA").2.1,
        u.2.inventory.lookup "$AAA" = none ∧ u.2.purchase_dates.lookup "$AAA" = none) ∧
      (handle_bankruptcy demoMarket demoUsers "$AAA").2.2 = holders_of demoUsers "$AAA") ∧
     handle_bankruptcy (handle_bankruptcy demoMarket demoUsers "$AAA").1
         (handle_bankruptcy demoMarket demoUsers "$AAA").2.1 "$AAA" =
       ((handle_bankruptcy demoMarket demoUsers "$AAA").1,
        (handle_bankruptcy demoMarket demoUsers "$AAA").2.1, [])) :=
  ⟨by decide, by decide,
   handle_bankruptcy_idempotent demoMarket demoUsers "$AAA" (by decide) (by decide)⟩

/- ### Sell / buy lemmas -/

/-- The seller's purchase-date log for a symbol, as sell_stock reads it
(missing user or missing key behaves as an empty log). -/
def seller_log (users : UserData) (symbol user_id : String) : List String :=
  (users.lookup user_id).elim [] (fun u => (u.purchase_dates.lookup symbol).getD [])

theorem same_day_check_flag (users : UserData) (symbol user_id today : String) :
    (same_day_check users symbol user_id today).1 = true ↔
      today ∈ seller_log users symbol user_id := by
  unfold same_day_check seller_log
  cases hu : users.lookup user_id with
  | none => simp
  | some u =>
    cases hd : u.purchase_dates.lookup symbol with
    | none => simp [hd]
    | some dates =>
      simp only [hd, Option.elim_some, Option.getD_some]
      by_cases hc : dates ≠ [] ∧ today ∈ dates
      · simp [hc, hc.2]
      · rw [if_neg hc]
        constructor
        · intro h
          exact absurd h Bool.false_ne_true
        · intro hmem
          refine absurd ⟨?_, hmem⟩ hc
          intro he
          rw [he] at hmem
          exact absurd hmem (List.not_mem_nil today)

theorem same_day_check_log (users : UserData) (symbol user_id today : String) :
    ((same_day_check users symbol user_id today).1 = true →
      seller_log (same_day_check users symbol user_id today).2 symbol user_id =
        (seller_log users symbol user_id).erase today) ∧
    ((same_day_check users symbol user_id today).1 = false →
      (same_day_check users symbol user_id today).2 = users) := by
  unfold same_day_check
  cases hu : users.lookup user_id with
  | none => simp
  | some u =>
    cases hd : u.purchase_dates.lookup symbol with
    | none => simp [hd]
    | some dates =>
      simp only [hd]
      by_cases hc : dates ≠ [] ∧ today ∈ dates
      · rw [if_pos hc]
        refine ⟨fun _ => ?_, fun h => Bool.noConfusion h⟩
        unfold seller_log
        rw [lookup_setk_self, hu]
        simp only [Option.elim_some]
        rw [lookup_setk_self, hd]
        rfl
      · rw [if_neg hc]
        simp

/-- C3: A successful sell reports sameDaySale exactly when today is in the
seller's purchase-date log for the symbol; in that case one occurrence of
today is removed from the log (a multiset) and the fee is the selling fee,
otherwise the fee is 0 and the store is untouched. The returned sale price is
the pre-impact price minus the fee. The market impact subtracts the sell draw
and rounds; if the result is ≤ 0 the bankruptcy runs synchronously inside the
call, the outcome reports bankruptcyTriggered = true, and no new price or
history entry is written (the symbol is fully delisted); otherwise the new
price and history entry are committed and bankruptcyTriggered = false. -/
theorem sell_stock_spec (st : MarketState) (users : UserData) (symbol user_id today : String)
    (change p : ℚ) (hpr : st.stock_prices.lookup symbol = some p)
    (hnd : st.stock_symbols.Nodup) :
    (sell_stock st users symbol user_id today change).isSome = true ∧
    (∀ st' users' r, sell_stock st users symbol user_id today change = some (st', users', r) →
      ((r.same_day_sale = true ↔ today ∈ seller_log users symbol user_id) ∧
       r.sale_price = p - (if r.same_day_sale then SELLING_FEE else 0) ∧
       (r.same_day_sale = true →
         seller_log (same_day_check users symbol user_id today).2 symbol user_id =
           (seller_log users symbol user_id).erase today ∧
         (seller_log (same_day_check users symbol user_id today).2 symbol user_id).count today =
           (seller_log users symbol user_id).count today - 1) ∧
       (r.same_day_sale = false → (same_day_check users symbol user_id today).2 = users) ∧
       (round2 (p - change) ≤ 0 →
         r.bankruptcy_triggered = true ∧
         st' = (handle_bankruptcy st (same_day_check users symbol user_id today).2 symbol).1 ∧
         users' = (handle_bankruptcy st (same_day_check users symbol user_id today).2
           symbol).2.1 ∧
         st'.stock_prices.lookup symbol = none ∧
         st'.price_history.lookup symbol = none ∧
         symbol ∉ st'.stock_symbols) ∧
       (¬ round2 (p - change) ≤ 0 →
         r.bankruptcy_triggered = false ∧
         users' = (same_day_check users symbol user_id today).2 ∧
         st'.stock_prices.lookup symbol = some (round2 (p - change)) ∧
         st'.price_history.lookup symbol =
           some (((st.price_history.lookup symbol).getD []) ++ [round2 (p - change)])))) := by
  have hsell : sell_stock st users symbol user_id today change =
      (if round2 (p - change) ≤ 0 then
        some ((handle_bankruptcy st (same_day_check users symbol user_id today).2 symbol).1,
          (handle_bankruptcy st (same_day_check users symbol user_id today).2 symbol).2.1,
          ⟨p - (if (same_day_check users symbol user_id today).1 then SELLING_FEE else 0),
           (same_day_check users symbol user_id today).1, true⟩)
      else
        some ({ st with
            stock_prices := setk st.stock_prices symbol (round2 (p - change)),
            price_history := setk st.price_history symbol
              (((st.price_history.lookup symbol).getD []) ++ [round2 (p - change)]) },
          (same_day_check users symbol user_id today).2,
          ⟨p - (if (same_day_check users symbol user_id today).1 then SELLING_FEE else 0),
           (same_day_check users symbol user_id today).1, false⟩)) := by
    unfold sell_stock
    rw [hpr]
  constructor
  · rw [hsell]
    by_cases hb : round2 (p - change) ≤ 0
    · rw [if_pos hb]; rfl
    · rw [if_neg hb]; rfl
  · intro st' users' r heq
    rw [hsell] at heq
    by_cases hb : round2 (p - change) ≤ 0
    · rw [if_pos hb, Option.some.injEq] at heq
      simp only [Prod.mk.injEq] at heq
      obtain ⟨rfl, rfl, rfl⟩ := heq
      refine ⟨same_day_check_flag users symbol user_id today, rfl,
        fun hf => ⟨(same_day_check_log users symbol user_id today).1 hf, ?_⟩,
        (same_day_check_log users symbol user_id today).2, fun _ => ?_, fun hnb => absurd hb hnb⟩
      · rw [(same_day_check_log users symbol user_id today).1 hf]
        exact List.count_erase_self today (seller_log users symbol user_id)
      · have hg := hb_gone st (same_day_check users symbol user_id today).2 symbol hnd
        exact ⟨rfl, rfl, rfl, hg.1, hg.2.1, hg.2.2.1⟩
    · rw [if_neg hb, Option.some.injEq] at heq
      simp only [Prod.mk.injEq] at heq
      obtain ⟨rfl, rfl, rfl⟩ := heq
      refine ⟨same_day_check_flag users symbol user_id today, rfl,
        fun hf => ⟨(same_day_check_log users symbol user_id today).1 hf, ?_⟩,
        (same_day_check_log users symbol user_id today).2, fun hbk => absurd hbk hb,
        fun _ => ⟨rfl, rfl, ?_, ?_⟩⟩
      · rw [(same_day_check_log users symbol user_id today).1 hf]
        exact List.count_erase_self today (seller_log users symbol user_id)
      · exact lookup_setk_self _ _ _
      · exact lookup_setk_self _ _ _

theorem sell_stock_spec_witness :
    demoMarket.stock_prices.lookup "$AAA" = some (1/2) ∧
    demoMarket.stock_symbols.Nodup ∧
    ((sell_stock demoMarket demoUsers "$AAA" "u1" "2025-01-01" 3).isSome = true ∧
     (∀ st' users' r,
        sell_stock demoMarket demoUsers "$AAA" "u1" "2025-01-01" 3 = some (st', users', r) →
       ((r.same_day_sale = true ↔ "2025-01-01" ∈ seller_log demoUsers "$AAA" "u1") ∧
        r.sale_price = 1/2 - (if r.same_day_sale then SELLING_FEE else 0) ∧
        (r.same_day_sale = true →
          seller_log (same_day_check demoUsers "$AAA" "u1" "2025-01-01").2 "$AAA" "u1" =
            (seller_log demoUsers "$AAA" "u1").erase "2025-01-01" ∧
          (seller_log (same_day_check demoUsers "$AAA" "u1" "2025-01-01").2 "$AAA"
              "u1").count "2025-01-01" =
            (seller_log demoUsers "$AAA" "u1").count "2025-01-01" - 1) ∧
        (r.same_day_sale = false →
          (same_day_check demoUsers "$AAA" "u1" "2025-01-01").2 = demoUsers) ∧
        (round2 (1/2 - 3) ≤ 0 →
          r.bankruptcy_triggered = true ∧
          st' = (handle_bankruptcy demoMarket
            (same_day_check demoUsers "$AAA" "u1" "2025-01-01").2 "$AAA").1 ∧
          users' = (handle_bankruptcy demoMarket
            (same_day_check demoUsers "$AAA" "u1" "2025-01-01").2 "$AAA").2.1 ∧
          st'.stock_prices.lookup "$AAA" = none ∧
          st'.price_history.lookup "$AAA" = none ∧
          "$AAA" ∉ st'.stock_symbols) ∧
        (¬ round2 (1/2 - 3) ≤ 0 →
          r.bankruptcy_triggered = false ∧
          users' = (same_day_check demoUsers "$AAA" "u1" "2025-01-01").2 ∧
          st'.stock_prices.lookup "$AAA" = some (round2 (1/2 - 3)) ∧
          st'.price_history.lookup "$AAA" =
            some (((demoMarket.price_history.lookup "$AAA").getD []) ++
              [round2 (1/2 - 3)]))))) :=
  ⟨by simp [demoMarket, List.lookup], by decide,
   sell_stock_spec demoMarket demoUsers "$AAA" "u1" "2025-01-01" 3 (1/2)
     (by simp [demoMarket, List.lookup]) (by decide)⟩

/-- C7: buy fails (the unknown-symbol error) when the symbol is not in the
price map; on success it returns the pre-impact price as the purchase price,
appends today exactly once to the buyer's purchase-date log for the symbol,
then commits the market impact round(price + draw, 2) to the price map and
appends it to the history, for any draw in the configured buy range. -/
theorem buy_stock_spec (st : MarketState) (users : UserData) (symbol user_id today : String)
    (change : ℚ)
    (hrange : STOCK_BUY_MIN_CHANGE ≤ change ∧ change ≤ STOCK_BUY_MAX_CHANGE) :
    (st.stock_prices.lookup symbol = none →
      buy_stock st users symbol user_id today change = none) ∧
    (∀ p, st.stock_prices.lookup symbol = some p →
      ∀ u, users.lookup user_id = some u →
      ∃ st' users', buy_stock st users symbol user_id today change = some (st', users', p) ∧
        (∃ u', users'.lookup user_id = some u' ∧
          u'.purchase_dates.lookup symbol =
            some (((u.purchase_dates.lookup symbol).getD []) ++ [today])) ∧
        st'.stock_prices.lookup symbol = some (round2 (p + change)) ∧
        st'.price_history.lookup symbol =
          some (((st.price_history.lookup symbol).getD []) ++ [round2 (p + change)])) := by
  constructor
  · intro hnone
    unfold buy_stock
    rw [hnone]
  · intro p hpr u hu
    refine ⟨{ st with stock_prices := setk st.stock_prices symbol (round2 (p + change)), price_history := setk st.price_history symbol (((st.price_history.lookup symbol).getD []) ++ [round2 (p + change)]) }, setk users user_id { u with purchase_dates := setk u.purchase_dates symbol (((u.purchase_dates.lookup symbol).getD []) ++ [today]) }, ?_, ?_, ?_, ?_⟩
    · unfold buy_stock
      rw [hpr, hu]
    · refine ⟨_, lookup_setk_self _ _ _, ?_⟩
      exact lookup_setk_self _ _ _
    · exact lookup_setk_self _ _ _
    · exact lookup_setk_self _ _ _

theorem buy_stock_spec_witness :
    (STOCK_BUY_MIN_CHANGE ≤ 4 ∧ (4 : ℚ) ≤ STOCK_BUY_MAX_CHANGE) ∧
    ((demoMarket.stock_prices.lookup "$XYZ" = none →
      buy_stock demoMarket demoUsers "$XYZ" "u1" "2025-06-01" 4 = none) ∧
    (∀ p, demoMarket.stock_prices.lookup "$BBB" = some p →
      ∀ u, demoUsers.lookup "u1" = some u →
      ∃ st' users', buy_stock demoMarket demoUsers "$BBB" "u1" "2025-06-01" 4 =
          some (st', users', p) ∧
        (∃ u', users'.lookup "u1" = some u' ∧
          u'.purchase_dates.lookup "$BBB" =
            some (((u.purchase_dates.lookup "$BBB").getD []) ++ ["2025-06-01"])) ∧
        st'.stock_prices.lookup "$BBB" = some (round2 (p + 4)) ∧
        st'.price_history.lookup "$BBB" =
          some (((demoMarket.price_history.lookup "$BBB").getD []) ++ [round2 (p + 4)]))) :=
  ⟨by norm_num [STOCK_BUY_MIN_CHANGE, STOCK_BUY_MAX_CHANGE],
   ⟨(buy_stock_spec demoMarket demoUsers "$XYZ" "u1" "2025-06-01" 4
       (by norm_num [STOCK_BUY_MIN_CHANGE, STOCK_BUY_MAX_CHANGE])).1,
    (buy_stock_spec demoMarket demoUsers "$BBB" "u1" "2025-06-01" 4
       (by norm_num [STOCK_BUY_MIN_CHANGE, STOCK_BUY_MAX_CHANGE])).2⟩⟩

/-- C10: For a buyer absent from the user-data store, buy still succeeds and
returns the purchase price, but the store is returned unchanged — no
purchase-date entry is written — so a subsequent same-day sell by that user
reports sameDaySale = false and charges no day-trading fee (sale price is the
pre-impact price minus 0). -/
theorem buy_absent_user_no_fee (st : MarketState) (users : UserData)
    (symbol user_id today : String) (change change2 p : ℚ)
    (hpr : st.stock_prices.lookup symbol = some p)
    (hu : users.lookup user_id = none) :
    ∃ st', buy_stock st users symbol user_id today change = some (st', users, p) ∧
      st'.stock_prices.lookup symbol = some (round2 (p + change)) ∧
      (sell_stock st' users symbol user_id today change2).isSome = true ∧
      (∀ st2 users2 r, sell_stock st' users symbol user_id today change2 =
          some (st2, users2, r) →
        r.same_day_sale = false ∧ r.sale_price = round2 (p + change) - 0) := by
  refine ⟨{ st with stock_prices := setk st.stock_prices symbol (round2 (p + change)), price_history := setk st.price_history symbol (((st.price_history.lookup symbol).getD []) ++ [round2 (p + change)]) }, ?_, lookup_setk_self _ _ _, ?_, ?_⟩
  · unfold buy_stock
    rw [hpr, hu]
  · unfold sell_stock
    simp only [lookup_setk_self]
    split <;> rfl
  · intro st2 users2 r heq
    have hsd : same_day_check users symbol user_id today = (false, users) := by
      unfold same_day_check
      rw [hu]
    unfold sell_stock at heq
    simp only [lookup_setk_self, hsd] at heq
    by_cases hb : round2 (round2 (p + change) - change2) ≤ 0
    · rw [if_pos hb, Option.some.injEq] at heq
      simp only [Prod.mk.injEq] at heq
      obtain ⟨-, -, rfl⟩ := heq
      exact ⟨rfl, by simp [SELLING_FEE]⟩
    · rw [if_neg hb, Option.some.injEq] at heq
      simp only [Prod.mk.injEq] at heq
      obtain ⟨-, -, rfl⟩ := heq
      exact ⟨rfl, by simp [SELLING_FEE]⟩

theorem buy_absent_user_no_fee_witness :
    demoMarket.stock_prices.lookup "$BBB" = some 50 ∧
    demoUsers.lookup "u9" = none ∧
    (∃ st', buy_stock demoMarket demoUsers "$BBB" "u9" "2025-06-01" 4 =
        some (st', demoUsers, 50) ∧
      st'.stock_prices.lookup "$BBB" = some (round2 (50 + 4)) ∧
      (sell_stock st' demoUsers "$BBB" "u9" "2025-06-01" 5).isSome = true ∧
      (∀ st2 users2 r, sell_stock st' demoUsers "$BBB" "u9" "2025-06-01" 5 =
          some (st2, users2, r) →
        r.same_day_sale = false ∧ r.sale_price = round2 (50 + 4) - 0)) :=
  ⟨by simp [demoMarket, List.lookup], by decide,
   buy_absent_user_no_fee demoMarket demoUsers "$BBB" "u9" "2025-06-01" 4 5 50
     (by simp [demoMarket, List.lookup]) (by decide)⟩

/-- C6: check_market_condition is a no-op while fewer than 9 hours have
passed since the last transition; otherwise it commits the condition chosen
by the weighted draw — the candidate weights are bear 0.2, bull 0.2,
volatile 0.2, stable 0.35, crash 0.05 — updating the regime name, the
(min, max) interval and the transition timestamp together, and the interval
committed for each regime lies in that regime's sampling ranges (bear:
min in [-5,-1], max in [-1,2]; bull: min in [-1,1], max in [2,5]; volatile:
min in [-7,-3], max in [3,7]; stable: min in [-3,-1], max in [1,3]; crash:
min in [-15,-8], max in [-8,-3]). -/
theorem check_market_condition_spec (st : MarketState) (now : ℚ) (d : RegimeDraws) (i : Fin 5)
    (hd : (-5 ≤ d.bear_min ∧ d.bear_min ≤ -1) ∧ (-1 ≤ d.bear_max ∧ d.bear_max ≤ 2) ∧
          (-1 ≤ d.bull_min ∧ d.bull_min ≤ 1) ∧ (2 ≤ d.bull_max ∧ d.bull_max ≤ 5) ∧
          (-7 ≤ d.vol_min ∧ d.vol_min ≤ -3) ∧ (3 ≤ d.vol_max ∧ d.vol_max ≤ 7) ∧
          (-3 ≤ d.stable_min ∧ d.stable_min ≤ -1) ∧ (1 ≤ d.stable_max ∧ d.stable_max ≤ 3) ∧
          (-15 ≤ d.crash_min ∧ d.crash_min ≤ -8) ∧ (-8 ≤ d.crash_max ∧ d.crash_max ≤ -3)) :
    (∀ t, st.last_condition_change = some t → (now - t) / 3600 < 9 →
      check_market_condition st now d i = st) ∧
    (∀ t, st.last_condition_change = some t → ¬ (now - t) / 3600 < 9 →
      check_market_condition st now d i = applyRegimeChoice st now d i) ∧
    (st.last_condition_change = none →
      check_market_condition st now d i = applyRegimeChoice st now d i) ∧
    ((conditions d).map Condition.weight = [(0.2 : ℚ), 0.2, 0.2, 0.35, 0.05]) ∧
    ((conditions d).map Condition.name = ["bear", "bull", "volatile", "stable", "crash"]) ∧
    ((applyRegimeChoice st now d i).market_condition =
        ((conditions d).getD i.val ⟨"bear", 1/5, d.bear_min, d.bear_max⟩).name ∧
     (applyRegimeChoice st now d i).current_min_change =
        ((conditions d).getD i.val ⟨"bear", 1/5, d.bear_min, d.bear_max⟩).min_change ∧
     (applyRegimeChoice st now d i).current_max_change =
        ((conditions d).getD i.val ⟨"bear", 1/5, d.bear_min, d.bear_max⟩).max_change ∧
     (applyRegimeChoice st now d i).last_condition_change = some now) ∧
    (((applyRegimeChoice st now d i).market_condition = "bear" →
        (-5 ≤ (applyRegimeChoice st now d i).current_min_change ∧
         (applyRegimeChoice st now d i).current_min_change ≤ -1) ∧
        (-1 ≤ (applyRegimeChoice st now d i).current_max_change ∧
         (applyRegimeChoice st now d i).current_max_change ≤ 2)) ∧
     ((applyRegimeChoice st now d i).market_condition = "bull" →
        (-1 ≤ (applyRegimeChoice st now d i).current_min_change ∧
         (applyRegimeChoice st now d i).current_min_change ≤ 1) ∧
        (2 ≤ (applyRegimeChoice st now d i).current_max_change ∧
         (applyRegimeChoice st now d i).current_max_change ≤ 5)) ∧
     ((applyRegimeChoice st now d i).market_condition = "volatile" →
        (-7 ≤ (applyRegimeChoice st now d i).current_min_change ∧
         (applyRegimeChoice st now d i).current_min_change ≤ -3) ∧
        (3 ≤ (applyRegimeChoice st now d i).current_max_change ∧
         (applyRegimeChoice st now d i).current_max_change ≤ 7)) ∧
     ((applyRegimeChoice st now d i).market_condition = "stable" →
        (-3 ≤ (applyRegimeChoice st now d i).current_min_change ∧
         (applyRegimeChoice st now d i).current_min_change ≤ -1) ∧
        (1 ≤ (applyRegimeChoice st now d i).current_max_change ∧
         (applyRegimeChoice st now d i).current_max_change ≤ 3)) ∧
     ((applyRegimeChoice st now d i).market_condition = "crash" →
        (-15 ≤ (applyRegimeChoice st now d i).current_min_change ∧
         (applyRegimeChoice st now d i).current_min_change ≤ -8) ∧
        (-8 ≤ (applyRegimeChoice st now d i).current_max_change ∧
         (applyRegimeChoice st now d i).current_max_change ≤ -3))) := by
  obtain ⟨h1, h2, h3, h4, h5, h6, h7, h8, h9, h10⟩ := hd
  refine ⟨?_, ?_, ?_, ?_, ?_, ⟨rfl, rfl, rfl, rfl⟩, ?_⟩
  · intro t ht hc
    unfold check_market_condition
    simp only [ht]
    rw [if_pos hc]
  · intro t ht hc
    unfold check_market_condition
    simp only [ht]
    rw [if_neg hc]
  · intro hn
    unfold check_market_condition
    simp only [hn]
  · norm_num [conditions]
  · norm_num [conditions]
  · fin_cases i
    · exact ⟨fun _ => ⟨h1, h2⟩, fun hn => by simp [applyRegimeChoice, conditions] at hn, fun hn => by simp [applyRegimeChoice, conditions] at hn,
        fun hn => by simp [applyRegimeChoice, conditions] at hn, fun hn => by simp [applyRegimeChoice, conditions] at hn⟩
    · exact ⟨fun hn => by simp [applyRegimeChoice, conditions] at hn, fun _ => ⟨h3, h4⟩, fun hn => by simp [applyRegimeChoice, conditions] at hn,
        fun hn => by simp [applyRegimeChoice, conditions] at hn, fun hn => by simp [applyRegimeChoice, conditions] at hn⟩
    · exact ⟨fun hn => by simp [applyRegimeChoice, conditions] at hn, fun hn => by simp [applyRegimeChoice, conditions] at hn,
        fun _ => ⟨h5, h6⟩, fun hn => by simp [applyRegimeChoice, conditions] at hn, fun hn => by simp [applyRegimeChoice, conditions] at hn⟩
    · exact ⟨fun hn => by simp [applyRegimeChoice, conditions] at hn, fun hn => by simp [applyRegimeChoice, conditions] at hn,
        fun hn => by simp [applyRegimeChoice, conditions] at hn, fun _ => ⟨h7, h8⟩, fun hn => by simp [applyRegimeChoice, conditions] at hn⟩
    · exact ⟨fun hn => by simp [applyRegimeChoice, conditions] at hn, fun hn => by simp [applyRegimeChoice, conditions] at hn,
        fun hn => by simp [applyRegimeChoice, conditions] at hn, fun hn => by simp [applyRegimeChoice, conditions] at hn, fun _ => ⟨h9, h10⟩⟩

theorem check_market_condition_spec_witness :
    ((-5 ≤ demoRegime.bear_min ∧ demoRegime.bear_min ≤ -1) ∧
     (-1 ≤ demoRegime.bear_max ∧ demoRegime.bear_max ≤ 2) ∧
     (-1 ≤ demoRegime.bull_min ∧ demoRegime.bull_min ≤ 1) ∧
     (2 ≤ demoRegime.bull_max ∧ demoRegime.bull_max ≤ 5) ∧
     (-7 ≤ demoRegime.vol_min ∧ demoRegime.vol_min ≤ -3) ∧
     (3 ≤ demoRegime.vol_max ∧ demoRegime.vol_max ≤ 7) ∧
     (-3 ≤ demoRegime.stable_min ∧ demoRegime.stable_min ≤ -1) ∧
     (1 ≤ demoRegime.stable_max ∧ demoRegime.stable_max ≤ 3) ∧
     (-15 ≤ demoRegime.crash_min ∧ demoRegime.crash_min ≤ -8) ∧
     (-8 ≤ demoRegime.crash_max ∧ demoRegime.crash_max ≤ -3)) ∧
    ((∀ t, demoMarket.last_condition_change = some t → (7 - t) / 3600 < 9 →
      check_market_condition demoMarket 7 demoRegime 2 = demoMarket) ∧
    (∀ t, demoMarket.last_condition_change = some t → ¬ (7 - t) / 3600 < 9 →
      check_market_condition demoMarket 7 demoRegime 2 = applyRegimeChoice demoMarket 7 demoRegime 2) ∧
    (demoMarket.last_condition_change = none →
      check_market_condition demoMarket 7 demoRegime 2 = applyRegimeChoice demoMarket 7 demoRegime 2) ∧
    ((conditions demoRegime).map Condition.weight = [(0.2 : ℚ), 0.2, 0.2, 0.35, 0.05]) ∧
    ((conditions demoRegime).map Condition.name = ["bear", "bull", "volatile", "stable", "crash"]) ∧
    ((applyRegimeChoice demoMarket 7 demoRegime 2).market_condition =
        ((conditions demoRegime).getD (2 : Fin 5).val ⟨"bear", 1/5, demoRegime.bear_min, demoRegime.bear_max⟩).name ∧
     (applyRegimeChoice demoMarket 7 demoRegime 2).current_min_change =
        ((conditions demoRegime).getD (2 : Fin 5).val ⟨"bear", 1/5, demoRegime.bear_min, demoRegime.bear_max⟩).min_change ∧
     (applyRegimeChoice demoMarket 7 demoRegime 2).current_max_change =
        ((conditions demoRegime).getD (2 : Fin 5).val ⟨"bear", 1/5, demoRegime.bear_min, demoRegime.bear_max⟩).max_change ∧
     (applyRegimeChoice demoMarket 7 demoRegime 2).last_condition_change = some 7) ∧
    (((applyRegimeChoice demoMarket 7 demoRegime 2).market_condition = "bear" →
        (-5 ≤ (applyRegimeChoice demoMarket 7 demoRegime 2).current_min_change ∧
         (applyRegimeChoice demoMarket 7 demoRegime 2).current_min_change ≤ -1) ∧
        (-1 ≤ (applyRegimeChoice demoMarket 7 demoRegime 2).current_max_change ∧
         (applyRegimeChoice demoMarket 7 demoRegime 2).current_max_change ≤ 2)) ∧
     ((applyRegimeChoice demoMarket 7 demoRegime 2).market_condition = "bull" →
        (-1 ≤ (applyRegimeChoice demoMarket 7 demoRegime 2).current_min_change ∧
         (applyRegimeChoice demoMarket 7 demoRegime 2).current_min_change ≤ 1) ∧
        (2 ≤ (applyRegimeChoice demoMarket 7 demoRegime 2).current_max_change ∧
         (applyRegimeChoice demoMarket 7 demoRegime 2).current_max_change ≤ 5)) ∧
     ((applyRegimeChoice demoMarket 7 demoRegime 2).market_condition = "volatile" →
        (-7 ≤ (applyRegimeChoice demoMarket 7 demoRegime 2).current_min_change ∧
         (applyRegimeChoice demoMarket 7 demoRegime 2).current_min_change ≤ -3) ∧
        (3 ≤ (applyRegimeChoice demoMarket 7 demoRegime 2).current_max_change ∧
         (applyRegimeChoice demoMarket 7 demoRegime 2).current_max_change ≤ 7)) ∧
     ((applyRegimeChoice demoMarket 7 demoRegime 2).market_condition = "stable" →
        (-3 ≤ (applyRegimeChoice demoMarket 7 demoRegime 2).current_min_change ∧
         (applyRegimeChoice demoMarket 7 demoRegime 2).current_min_change ≤ -1) ∧
        (1 ≤ (applyRegimeChoice demoMarket 7 demoRegime 2).current_max_change ∧
         (applyRegimeChoice demoMarket 7 demoRegime 2).current_max_change ≤ 3)) ∧
     ((applyRegimeChoice demoMarket 7 demoRegime 2).market_condition = "crash" →
        (-15 ≤ (applyRegimeChoice demoMarket 7 demoRegime 2).current_min_change ∧
         (applyRegimeChoice demoMarket 7 demoRegime 2).current_min_change ≤ -8) ∧
        (-8 ≤ (applyRegimeChoice demoMarket 7 demoRegime 2).current_max_change ∧
         (applyRegimeChoice demoMarket 7 demoRegime 2).current_max_change ≤ -3)))) :=
  ⟨by norm_num [demoRegime],
   check_market_condition_spec demoMarket 7 demoRegime 2 (by norm_num [demoRegime])⟩

/- ### Decay lemmas -/

theorem lookup_graph {α : Type} (f : String → α) (l : List String) (s : String) (hs : s ∈ l) :
    (l.map (fun a => (a, f a))).lookup s = some (f s) := by
  induction l with
  | nil => exact absurd hs (List.not_mem_nil s)
  | cons a t ih =>
    by_cases he : s = a
    · subst he
      simp [List.lookup]
    · simp only [List.map_cons, List.lookup, beq_false_of_ne he]
      exact ih ((List.mem_cons.mp hs).resolve_left he)

theorem decayOne_ne (percent : ℚ) (acc : MarketState × List String) (sp : String × Nat)
    {s : String} (h : s ≠ sp.1) :
    (decayOne percent acc sp).1.stock_prices.lookup s = acc.1.stock_prices.lookup s ∧
    (decayOne percent acc sp).1.price_history.lookup s = acc.1.price_history.lookup s ∧
    (s ∈ (decayOne percent acc sp).2 ↔ s ∈ acc.2) := by
  unfold decayOne
  cases hl : acc.1.stock_prices.lookup sp.1 with
  | none => exact ⟨rfl, rfl, Iff.rfl⟩
  | some current_price =>
    refine ⟨lookup_setk_ne _ _ h, lookup_setk_ne _ _ h, ?_⟩
    simp [h]

theorem decayOne_fold (percent : ℚ) (l : List (String × Nat)) :
    ∀ (st : MarketState) (dl : List String),
      (l.map Prod.fst).Nodup →
      (∀ sp ∈ l, (st.stock_prices.lookup sp.1).isSome = true) →
      ((l.foldl (decayOne percent) (st, dl)).2 = dl ++ l.map Prod.fst ∧
       (∀ sp ∈ l, ∀ p, st.stock_prices.lookup sp.1 = some p →
          (l.foldl (decayOne percent) (st, dl)).1.stock_prices.lookup sp.1 =
            some (round2 (max (1/100) (p * (1 - percent / 100)))) ∧
          (l.foldl (decayOne percent) (st, dl)).1.price_history.lookup sp.1 =
            some (((st.price_history.lookup sp.1).getD []) ++
              [round2 (max (1/100) (p * (1 - percent / 100)))])) ∧
       (∀ s, s ∉ l.map Prod.fst →
          (l.foldl (decayOne percent) (st, dl)).1.stock_prices.lookup s =
            st.stock_prices.lookup s ∧
          (l.foldl (decayOne percent) (st, dl)).1.price_history.lookup s =
            st.price_history.lookup s) ∧
       (l.foldl (decayOne percent) (st, dl)).1.stock_symbols = st.stock_symbols ∧
       (l.foldl (decayOne percent) (st, dl)).1.user_to_ticker = st.user_to_ticker) := by
  induction l with
  | nil =>
    intro st dl _ _
    exact ⟨by simp, fun sp hsp => absurd hsp (List.not_mem_nil sp), fun s _ => ⟨rfl, rfl⟩,
      rfl, rfl⟩
  | cons a t ih =>
    intro st dl hnd hsome
    obtain ⟨p0, hp0⟩ := Option.isSome_iff_exists.mp (hsome a (List.mem_cons_self a t))
    have hstep : decayOne percent (st, dl) a =
        ({ st with
            stock_prices := setk st.stock_prices a.1
              (round2 (max (1/100) (p0 * (1 - percent / 100)))),
            price_history := setk st.price_history a.1
              (((st.price_history.lookup a.1).getD []) ++
                [round2 (max (1/100) (p0 * (1 - percent / 100)))]) },
          dl ++ [a.1]) := by
      unfold decayOne
      rw [hp0]
    have hka : a.1 ∉ t.map Prod.fst := (List.nodup_cons.mp (by simpa using hnd)).1
    have hndt : (t.map Prod.fst).Nodup := (List.nodup_cons.mp (by simpa using hnd)).2
    have hsome2 : ∀ sp ∈ t, (((decayOne percent (st, dl) a).1).stock_prices.lookup
        sp.1).isSome = true := by
      intro sp hsp
      have hne : sp.1 ≠ a.1 := by
        intro he
        exact hka (he ▸ List.mem_map.mpr ⟨sp, hsp, rfl⟩)
      rw [hstep]
      show ((setk st.stock_prices a.1 _).lookup sp.1).isSome = true
      rw [lookup_setk_ne _ _ hne]
      exact hsome sp (List.mem_cons_of_mem a hsp)
    have hIH := ih (decayOne percent (st, dl) a).1 (decayOne percent (st, dl) a).2 hndt hsome2
    simp only [List.foldl_cons]
    rw [show t.foldl (decayOne percent) (decayOne percent (st, dl) a) =
      t.foldl (decayOne percent) ((decayOne percent (st, dl) a).1,
        (decayOne percent (st, dl) a).2) from rfl]
    refine ⟨?_, ?_, ?_, ?_, ?_⟩
    · rw [hIH.1, hstep]
      simp
    · intro sp hsp p hp
      rcases List.mem_cons.mp hsp with he | hm
      · subst he
        rw [hp0] at hp
        obtain rfl : p0 = p := Option.some.injEq .. ▸ hp
        have hpres := hIH.2.2.1 sp.1 hka
        refine ⟨?_, ?_⟩
        · rw [hpres.1, hstep]
          exact lookup_setk_self _ _ _
        · rw [hpres.2, hstep]
          exact lookup_setk_self _ _ _
      · have hne : sp.1 ≠ a.1 := by
          intro he
          exact hka (he ▸ List.mem_map.mpr ⟨sp, hm, rfl⟩)
        have h1 := hIH.2.1 sp hm p (by
          rw [hstep]
          show (setk st.stock_prices a.1 _).lookup sp.1 = some p
          rw [lookup_setk_ne _ _ hne]
          exact hp)
        refine ⟨h1.1, ?_⟩
        rw [h1.2, hstep]
        show some (((setk st.price_history a.1 _).lookup sp.1).getD [] ++ _) = _
        rw [lookup_setk_ne _ _ hne]
    · intro s hs
      have hsa : s ≠ a.1 := fun he => hs (by rw [he]; exact List.mem_cons_self _ _)
      have hst : s ∉ t.map Prod.fst := fun hm => hs (List.mem_cons_of_mem _ hm)
      have h2 := hIH.2.2.1 s hst
      have h1 := decayOne_ne percent (st, dl) a hsa
      exact ⟨h2.1.trans h1.1, h2.2.trans h1.2.1⟩
    · rw [hIH.2.2.2.1, hstep]
    · rw [hIH.2.2.2.2, hstep]

theorem pop_keys (st : MarketState) (users : UserData) :
    (calculate_stock_popularity st users).map Prod.fst = st.stock_symbols := by
  unfold calculate_stock_popularity
  rw [List.map_map]
  simp [Function.comp_def]

/-- C8: applyDecay is a no-op returning the empty list when the listed count
is at most the threshold. Otherwise it decays exactly excess = count −
threshold symbols: the first excess entries of the stable
popularity-ascending ranking (each of popularity no higher than every
surviving entry, popularity being the positive-quantity holder count plus 1
when the creator holds their own stock), multiplying each price by
(1 − percent/100) with a 0.01 floor and 2-dp rounding, appending the new
price to that history, and leaving every other symbol's price and history
unchanged. -/
theorem apply_stock_decay_spec (threshold : Nat) (percent : ℚ) (st : MarketState)
    (users : UserData) (hwf : WFMarket st) :
    (st.stock_symbols.length ≤ threshold →
      apply_stock_decay threshold percent st users = (st, [])) ∧
    (threshold < st.stock_symbols.length →
      (apply_stock_decay threshold percent st users).2 =
        (((calculate_stock_popularity st users).insertionSort popLE).take
          (st.stock_symbols.length - threshold)).map Prod.fst ∧
      (apply_stock_decay threshold percent st users).2.length =
        st.stock_symbols.length - threshold ∧
      (∀ sp ∈ ((calculate_stock_popularity st users).insertionSort popLE).take
          (st.stock_symbols.length - threshold),
        ∀ q ∈ ((calculate_stock_popularity st users).insertionSort popLE).drop
          (st.stock_symbols.length - threshold), sp.2 ≤ q.2) ∧
      (∀ sp ∈ ((calculate_stock_popularity st users).insertionSort popLE).take
          (st.stock_symbols.length - threshold),
        ∀ p, st.stock_prices.lookup sp.1 = some p →
        (apply_stock_decay threshold percent st users).1.stock_prices.lookup sp.1 =
          some (round2 (max (1/100) (p * (1 - percent / 100)))) ∧
        (apply_stock_decay threshold percent st users).1.price_history.lookup sp.1 =
          some (((st.price_history.lookup sp.1).getD []) ++
            [round2 (max (1/100) (p * (1 - percent / 100)))])) ∧
      (∀ s, s ∉ (apply_stock_decay threshold percent st users).2 →
        (apply_stock_decay threshold percent st users).1.stock_prices.lookup s =
          st.stock_prices.lookup s ∧
        (apply_stock_decay threshold percent st users).1.price_history.lookup s =
          st.price_history.lookup s)) ∧
    (∀ s ∈ st.stock_symbols,
      (calculate_stock_popularity st users).lookup s =
        some (users.countP (fun u =>
            match u.2.inventory.lookup s with
            | some q => decide (0 < q)
            | none => false) +
          (match find_creator st.user_to_ticker s with
           | some creator_id =>
             match users.lookup creator_id with
             | some u => if (u.inventory.lookup s).isSome then 1 else 0
             | none => 0
           | none => 0))) := by
  obtain ⟨hnd, hwp, hwh⟩ := hwf
  have hpopkeys := pop_keys st users
  have hperm := List.perm_insertionSort popLE (calculate_stock_popularity st users)
  set sorted := (calculate_stock_popularity st users).insertionSort popLE with hsorted_def
  have hsortkeys : (sorted.map Prod.fst).Nodup :=
    ((hperm.map Prod.fst).nodup_iff).mpr (hpopkeys ▸ hnd)
  refine ⟨?_, ?_, ?_⟩
  · intro hle
    unfold apply_stock_decay
    rw [if_pos hle]
  · intro hgt
    have hne : ¬ st.stock_symbols.length ≤ threshold := not_le.mpr hgt
    have hdecay : apply_stock_decay threshold percent st users =
        (sorted.take (st.stock_symbols.length - threshold)).foldl (decayOne percent)
          (st, []) := by
      unfold apply_stock_decay
      rw [if_neg hne]
    set ex := st.stock_symbols.length - threshold with hex
    have hkeysnd : ((sorted.take ex).map Prod.fst).Nodup :=
      List.Nodup.sublist ((sorted.take_sublist ex).map Prod.fst) hsortkeys
    have hsub : ∀ sp ∈ sorted.take ex, sp.1 ∈ st.stock_symbols := by
      intro sp hsp
      rw [← hpopkeys]
      exact List.mem_map.mpr ⟨sp, hperm.mem_iff.mp (List.mem_of_mem_take hsp), rfl⟩
    have hsome : ∀ sp ∈ sorted.take ex, (st.stock_prices.lookup sp.1).isSome = true :=
      fun sp hsp => hwp sp.1 (hsub sp hsp)
    have hfold := decayOne_fold percent (sorted.take ex) st [] hkeysnd hsome
    refine ⟨?_, ?_, ?_, ?_, ?_⟩
    · rw [hdecay, hfold.1, List.nil_append]
    · rw [hdecay, hfold.1, List.nil_append, List.length_map, List.length_take]
      have hlen : sorted.length = st.stock_symbols.length := by
        rw [hperm.length_eq]
        calc (calculate_stock_popularity st users).length
            = ((calculate_stock_popularity st users).map Prod.fst).length :=
              (List.length_map _ _).symm
          _ = st.stock_symbols.length := by rw [hpopkeys]
      omega
    · intro sp hsp q hq
      have hs := List.sorted_insertionSort popLE (calculate_stock_popularity st users)
      rw [← hsorted_def] at hs
      rw [← List.take_append_drop ex sorted] at hs
      exact (List.pairwise_append.mp hs).2.2 sp hsp q hq
    · intro sp hsp p hp
      rw [hdecay]
      exact hfold.2.1 sp hsp p hp
    · intro s hs
      rw [hdecay]
      apply hfold.2.2.1
      intro hmem
      apply hs
      rw [hdecay, hfold.1, List.nil_append]
      exact hmem
  · intro s hs
    unfold calculate_stock_popularity
    rw [lookup_graph (popScore st users) st.stock_symbols s hs]
    unfold popScore
    rw [List.countP_eq_length_filter]

theorem apply_stock_decay_spec_witness :
    WFMarket demoMarket ∧
    ((demoMarket.stock_symbols.length ≤ 1 →
      apply_stock_decay 1 10 demoMarket demoUsers = (demoMarket, [])) ∧
    (1 < demoMarket.stock_symbols.length →
      (apply_stock_decay 1 10 demoMarket demoUsers).2 =
        (((calculate_stock_popularity demoMarket demoUsers).insertionSort popLE).take
          (demoMarket.stock_symbols.length - 1)).map Prod.fst ∧
      (apply_stock_decay 1 10 demoMarket demoUsers).2.length =
        demoMarket.stock_symbols.length - 1 ∧
      (∀ sp ∈ ((calculate_stock_popularity demoMarket demoUsers).insertionSort popLE).take
          (demoMarket.stock_symbols.length - 1),
        ∀ q ∈ ((calculate_stock_popularity demoMarket demoUsers).insertionSort popLE).drop
          (demoMarket.stock_symbols.length - 1), sp.2 ≤ q.2) ∧
      (∀ sp ∈ ((calculate_stock_popularity demoMarket demoUsers).insertionSort popLE).take
          (demoMarket.stock_symbols.length - 1),
        ∀ p, demoMarket.stock_prices.lookup sp.1 = some p →
        (apply_stock_decay 1 10 demoMarket demoUsers).1.stock_prices.lookup sp.1 =
          some (round2 (max (1/100) (p * (1 - 10 / 100)))) ∧
        (apply_stock_decay 1 10 demoMarket demoUsers).1.price_history.lookup sp.1 =
          some (((demoMarket.price_history.lookup sp.1).getD []) ++
            [round2 (max (1/100) (p * (1 - 10 / 100)))])) ∧
      (∀ s, s ∉ (apply_stock_decay 1 10 demoMarket demoUsers).2 →
        (apply_stock_decay 1 10 demoMarket demoUsers).1.stock_prices.lookup s =
          demoMarket.stock_prices.lookup s ∧
        (apply_stock_decay 1 10 demoMarket demoUsers).1.price_history.lookup s =
          demoMarket.price_history.lookup s)) ∧
    (∀ s ∈ demoMarket.stock_symbols,
      (calculate_stock_popularity demoMarket demoUsers).lookup s =
        some (demoUsers.countP (fun u =>
            match u.2.inventory.lookup s with
            | some q => decide (0 < q)
            | none => false) +
          (match find_creator demoMarket.user_to_ticker s with
           | some creator_id =>
             match demoUsers.lookup creator_id with
             | some u => if (u.inventory.lookup s).isSome then 1 else 0
             | none => 0
           | none => 0)))) :=
  ⟨demoMarket_wf, apply_stock_decay_spec 1 10 demoMarket demoUsers demoMarket_wf⟩

set_option maxRecDepth 8000

set_option maxHeartbeats 1000000

/-- C9: get_decay_risk_stocks is a pure report (it returns only a list and
leaves the market state untouched): empty when the listed count is at most
the threshold; otherwise it covers the excess + min 3 threshold lowest
entries of the popularity-ascending ranking, scoring exactly 100 for each of
the excess entries that are guaranteed to decay and
100 − position · 75 / buffer for the buffer entries — a linear ramp from
100 toward 25 that stays in (25, 100] and strictly decreases along the
buffer — while every excess entry's popularity is at most every surviving
entry's. -/
theorem get_decay_risk_stocks_spec (threshold : Nat) (st : MarketState) (users : UserData) :
    (st.stock_symbols.length ≤ threshold → get_decay_risk_stocks threshold st users = []) ∧
    (threshold < st.stock_symbols.length →
      (get_decay_risk_stocks threshold st users).length =
        (st.stock_symbols.length - threshold) + min 3 threshold ∧
      (∀ i, i < (st.stock_symbols.length - threshold) + min 3 threshold →
        ∃ sp, ((calculate_stock_popularity st users).insertionSort popLE)[i]? = some sp ∧
          (get_decay_risk_stocks threshold st users)[i]? =
            some (sp.1,
              if i < st.stock_symbols.length - threshold then (100 : ℚ)
              else 100 - ((i - (st.stock_symbols.length - threshold) : ℕ) : ℚ) * 75 /
                ((min 3 threshold : ℕ) : ℚ))) ∧
      (∀ sp ∈ ((calculate_stock_popularity st users).insertionSort popLE).take
          (st.stock_symbols.length - threshold),
        ∀ q ∈ ((calculate_stock_popularity st users).insertionSort popLE).drop
          (st.stock_symbols.length - threshold), sp.2 ≤ q.2)) ∧
    (0 < min 3 threshold →
      ∀ j : ℕ, j < min 3 threshold →
        (25 < 100 - (j : ℚ) * 75 / ((min 3 threshold : ℕ) : ℚ) ∧
         100 - (j : ℚ) * 75 / ((min 3 threshold : ℕ) : ℚ) ≤ 100) ∧
        (∀ j2 : ℕ, j < j2 → j2 < min 3 threshold →
          100 - (j2 : ℚ) * 75 / ((min 3 threshold : ℕ) : ℚ) <
            100 - (j : ℚ) * 75 / ((min 3 threshold : ℕ) : ℚ))) := by
  have hpopkeys := pop_keys st users
  have hperm := List.perm_insertionSort popLE (calculate_stock_popularity st users)
  set sorted := (calculate_stock_popularity st users).insertionSort popLE with hsorted_def
  have hlen : sorted.length = st.stock_symbols.length := by
    rw [hperm.length_eq]
    calc (calculate_stock_popularity st users).length
        = ((calculate_stock_popularity st users).map Prod.fst).length :=
          (List.length_map _ _).symm
      _ = st.stock_symbols.length := by rw [hpopkeys]
  refine ⟨?_, ?_, ?_⟩
  · intro hle
    unfold get_decay_risk_stocks
    rw [if_pos hle]
  · intro hgt
    have hne : ¬ st.stock_symbols.length ≤ threshold := not_le.mpr hgt
    set ex := st.stock_symbols.length - threshold with hex
    have hbuf : min 3 (sorted.length - ex) = min 3 threshold := by
      rw [hlen]
      omega
    have hres : get_decay_risk_stocks threshold st users =
        (sorted.take (ex + min 3 (sorted.length - ex))).enum.map (fun ip =>
          if ip.1 < ex then (ip.2.1, (100 : ℚ))
          else (ip.2.1, 100 - (if 0 < min 3 (sorted.length - ex) then
            (((ip.1 - ex : Nat) : ℚ) * 75) / ((min 3 (sorted.length - ex) : ℕ) : ℚ)
            else 0))) := by
      unfold get_decay_risk_stocks
      rw [if_neg hne]
    have hrc : ex + min 3 threshold ≤ sorted.length := by
      rw [hlen]
      omega
    have hreslen : (get_decay_risk_stocks threshold st users).length =
        ex + min 3 threshold := by
      rw [hres, List.length_map, List.enum_length, List.length_take, hbuf]
      omega
    refine ⟨hreslen, ?_, ?_⟩
    · intro i hi
      have hisort : i < sorted.length := by omega
      have hireslist : i < ((sorted.take (ex + min 3 (sorted.length - ex))).enum.map
          (fun ip =>
            if ip.1 < ex then (ip.2.1, (100 : ℚ))
            else (ip.2.1, 100 - (if 0 < min 3 (sorted.length - ex) then
              (((ip.1 - ex : Nat) : ℚ) * 75) / ((min 3 (sorted.length - ex) : ℕ) : ℚ)
              else 0)))).length := by
        rw [List.length_map, List.enum_length, List.length_take, hbuf]
        omega
      refine ⟨sorted.get ⟨i, hisort⟩, ?_, ?_⟩
      · rw [List.getElem?_eq_getElem hisort]
        rfl
      · rw [hres]
        rw [List.getElem?_eq_getElem hireslist]
        simp only [List.getElem_map, List.getElem_enum, List.getElem_take, hbuf,
          List.get_eq_getElem, Option.some.injEq]
        by_cases hcase : i < ex
        · simp [hcase]
        · by_cases hbp : 0 < min 3 threshold
          · simp [hcase, hbp]
          · have hz : min 3 threshold = 0 := Nat.eq_zero_of_not_pos hbp
            simp [hcase, hbp, hz]
    · intro sp hsp q hq
      have hs := List.sorted_insertionSort popLE (calculate_stock_popularity st users)
      rw [← hsorted_def] at hs
      rw [← List.take_append_drop ex sorted] at hs
      exact (List.pairwise_append.mp hs).2.2 sp hsp q hq
  · intro hbpos j hj
    have hb0 : (0 : ℚ) < ((min 3 threshold : ℕ) : ℚ) := by
      exact_mod_cast hbpos
    have hjb : (j : ℚ) < ((min 3 threshold : ℕ) : ℚ) := by
      exact_mod_cast hj
    refine ⟨⟨?_, ?_⟩, ?_⟩
    · have : (j : ℚ) * 75 / ((min 3 threshold : ℕ) : ℚ) < 75 := by
        rw [div_lt_iff₀ hb0]
        calc (j : ℚ) * 75 < ((min 3 threshold : ℕ) : ℚ) * 75 := by
              exact mul_lt_mul_of_pos_right hjb (by norm_num)
          _ = 75 * ((min 3 threshold : ℕ) : ℚ) := by ring
      linarith
    · have : (0 : ℚ) ≤ (j : ℚ) * 75 / ((min 3 threshold : ℕ) : ℚ) := by positivity
      linarith
    · intro j2 hjj2 hj2
      have hcast : (j : ℚ) < (j2 : ℚ) := by exact_mod_cast hjj2
      have hlt : (j : ℚ) * 75 / ((min 3 threshold : ℕ) : ℚ) <
          (j2 : ℚ) * 75 / ((min 3 threshold : ℕ) : ℚ) := by
        apply div_lt_div_of_pos_right ?_ hb0
        exact mul_lt_mul_of_pos_right hcast (by norm_num)
      linarith

theorem get_decay_risk_stocks_spec_witness :
    (demoMarket.stock_symbols.length ≤ 1 → get_decay_risk_stocks 1 demoMarket demoUsers = []) ∧
    (1 < demoMarket.stock_symbols.length →
      (get_decay_risk_stocks 1 demoMarket demoUsers).length =
        (demoMarket.stock_symbols.length - 1) + min 3 1 ∧
      (∀ i, i < (demoMarket.stock_symbols.length - 1) + min 3 1 →
        ∃ sp, ((calculate_stock_popularity demoMarket demoUsers).insertionSort popLE)[i]? = some sp ∧
          (get_decay_risk_stocks 1 demoMarket demoUsers)[i]? =
            some (sp.1,
              if i < demoMarket.stock_symbols.length - 1 then (100 : ℚ)
              else 100 - ((i - (demoMarket.stock_symbols.length - 1) : ℕ) : ℚ) * 75 /
                ((min 3 1 : ℕ) : ℚ))) ∧
      (∀ sp ∈ ((calculate_stock_popularity demoMarket demoUsers).insertionSort popLE).take
          (demoMarket.stock_symbols.length - 1),
        ∀ q ∈ ((calculate_stock_popularity demoMarket demoUsers).insertionSort popLE).drop
          (demoMarket.stock_symbols.length - 1), sp.2 ≤ q.2)) ∧
    (0 < min 3 1 →
      ∀ j : ℕ, j < min 3 1 →
        (25 < 100 - (j : ℚ) * 75 / ((min 3 1 : ℕ) : ℚ) ∧
         100 - (j : ℚ) * 75 / ((min 3 1 : ℕ) : ℚ) ≤ 100) ∧
        (∀ j2 : ℕ, j < j2 → j2 < min 3 1 →
          100 - (j2 : ℚ) * 75 / ((min 3 1 : ℕ) : ℚ) <
            100 - (j : ℚ) * 75 / ((min 3 1 : ℕ) : ℚ))) :=
  get_decay_risk_stocks_spec 1 demoMarket demoUsers

/- ### Dividend lemmas -/

/-- The per-rank percentage schedule as the spec states it (rank 0: 1.0%,
rank 1: 0.5%, rank 2: 0.25%, nothing past rank 2). -/
def rank_percent : Nat → ℚ
  | 0 => 1
  | 1 => 1/2
  | 2 => 1/4
  | _ => 0

/-- Modelled from the spec's wording: what one stock pays `uid` through the
top-shareholder schedule — the rank percentage of the current price, rounded,
at the user's rank in the shares-descending ranking. -/
def spec_sh_payment (price : ℚ) (shareholders : List (String × Int)) (uid : String) : ℚ :=
  (((shareholders.take TOP_SHAREHOLDERS_COUNT).enum).map (fun ru =>
    if ru.2.1 = uid then round2 (price * (rank_percent ru.1 / 100)) else 0)).sum

/-- Modelled from the spec's wording: what one stock pays `uid` as its
creator — round(price * creatorPercent/100 * third-party shares, 2), due
exactly when a (non-falsy) creator exists and others hold at least a share. -/
def spec_cr_payment (u2t : List (String × String)) (symbol : String) (price : ℚ)
    (shareholders : List (String × Int)) (uid : String) : ℚ :=
  match find_creator u2t symbol with
  | some creator_id =>
    if creator_id ≠ "" ∧ creator_id = uid ∧
        0 < ((shareholders.filter (fun q => q.1 ≠ creator_id)).map (fun q => (q.2 : ℚ))).sum then
      round2 (price * (CREATOR_DIVIDEND_PERCENT / 100) *
        ((shareholders.filter (fun q => q.1 ≠ creator_id)).map (fun q => (q.2 : ℚ))).sum)
    else 0
  | none => 0

/-- The run's total for one user: the sum over all listed symbols with
positive price of the shareholder and creator payments. -/
def spec_user_total (st : MarketState) (users : UserData) (uid : String) : ℚ :=
  (st.stock_symbols.map (fun s =>
    match st.stock_prices.lookup s with
    | none => 0
    | some price =>
      if price ≤ 0 then 0
      else spec_sh_payment price (get_shareholders users s) uid +
        spec_cr_payment st.user_to_ticker s price (get_shareholders users s) uid)).sum

/-- The record a paid user ends with: balance credited once and last-dividend
overwritten when the total is positive, untouched (beyond lazy creation)
otherwise. -/
def payRec (o : Option UserRec) (today : String) (total : ℚ) : UserRec :=
  let base := o.getD DEFAULT_USER_DATA
  if 0 < total then
    { base with balance := base.balance + total, last_dividend := some (today, total) }
  else base

theorem rank_amount_eq (price : ℚ) (r : Nat) :
    (match TOP_SHAREHOLDER_DIVIDENDS r with
     | some percent => round2 (price * (percent / 100))
     | none => (0 : ℚ)) = round2 (price * (rank_percent r / 100)) := by
  match r with
  | 0 => rfl
  | 1 => rfl
  | 2 => rfl
  | (n + 3) =>
    show (0 : ℚ) = round2 (price * (rank_percent (n + 3) / 100))
    have : rank_percent (n + 3) = 0 := rfl
    rw [this]
    norm_num [round2]

theorem calc_sh_lookup (price : ℚ) (L : List (Nat × String × Int)) :
    ∀ (d : List (String × ℚ)) (uid : String),
    ((L.foldl (fun d ru =>
        match TOP_SHAREHOLDER_DIVIDENDS ru.1 with
        | some percent => addk d ru.2.1 (round2 (price * (percent / 100)))
        | none => d) d).lookup uid).getD 0 =
      (d.lookup uid).getD 0 +
      (L.map (fun ru =>
        if ru.2.1 = uid then round2 (price * (rank_percent ru.1 / 100)) else 0)).sum := by
  induction L with
  | nil => intro d uid; simp
  | cons a t ih =>
    intro d uid
    simp only [List.foldl_cons, List.map_cons, List.sum_cons]
    rw [ih]
    have hstep : (((match TOP_SHAREHOLDER_DIVIDENDS a.1 with
        | some percent => addk d a.2.1 (round2 (price * (percent / 100)))
        | none => d) : List (String × ℚ)).lookup uid).getD 0 =
        (d.lookup uid).getD 0 +
        (if a.2.1 = uid then round2 (price * (rank_percent a.1 / 100)) else 0) := by
      cases htop : TOP_SHAREHOLDER_DIVIDENDS a.1 with
      | none =>
        have h0 : rank_percent a.1 = 0 := by
          match a, htop with
          | (0, _), htop => exact absurd htop (by simp [TOP_SHAREHOLDER_DIVIDENDS])
          | (1, _), htop => exact absurd htop (by simp [TOP_SHAREHOLDER_DIVIDENDS])
          | (2, _), htop => exact absurd htop (by simp [TOP_SHAREHOLDER_DIVIDENDS])
          | (n + 3, _), _ => rfl
        by_cases he : a.2.1 = uid
        · rw [if_pos he, h0]
          norm_num [round2]
        · rw [if_neg he]
          simp
      | some percent =>
        have hamt : round2 (price * (percent / 100)) =
            round2 (price * (rank_percent a.1 / 100)) := by
          have := rank_amount_eq price a.1
          rw [htop] at this
          exact this
        by_cases he : a.2.1 = uid
        · rw [if_pos he]
          subst he
          rw [lookup_addk_self, Option.getD_some, hamt]
        · rw [if_neg he]
          rw [lookup_addk_ne _ _ (fun hx => he hx.symm)]
          simp
    rw [hstep]
    ring

theorem calc_cr_lookup (u2t : List (String × String)) (symbol : String) (price : ℚ)
    (shareholders : List (String × Int)) (d : List (String × ℚ)) (uid : String) :
    ((calculate_creator_dividends u2t symbol price shareholders d).lookup uid).getD 0 =
      (d.lookup uid).getD 0 + spec_cr_payment u2t symbol price shareholders uid := by
  cases hf : find_creator u2t symbol with
  | none => simp [calculate_creator_dividends, spec_cr_payment, hf]
  | some creator_id =>
    simp only [calculate_creator_dividends, spec_cr_payment, hf]
    by_cases hemp : creator_id = ""
    · rw [if_pos hemp]
      have : ¬ (creator_id ≠ "" ∧ creator_id = uid ∧
          0 < ((shareholders.filter (fun q => q.1 ≠ creator_id)).map (fun q => (q.2 : ℚ))).sum) :=
        fun hx => hx.1 hemp
      rw [if_neg this]
      simp
    · rw [if_neg hemp]
      by_cases hpos :
          0 < ((shareholders.filter (fun q => q.1 ≠ creator_id)).map (fun q => (q.2 : ℚ))).sum
      · rw [if_pos hpos]
        by_cases he : creator_id = uid
        · subst he
          rw [if_pos ⟨hemp, rfl, hpos⟩, lookup_addk_self, Option.getD_some]
        · rw [if_neg (fun hx => he hx.2.1),
            lookup_addk_ne _ _ (fun hx => he hx.symm)]
          simp
      · rw [if_neg hpos]
        have : ¬ (creator_id ≠ "" ∧ creator_id = uid ∧
            0 < ((shareholders.filter (fun q => q.1 ≠ creator_id)).map (fun q => (q.2 : ℚ))).sum) :=
          fun hx => hpos hx.2.2
        rw [if_neg this]
        simp

theorem dividend_pass_lookup (st : MarketState) (users : UserData) (l : List String) :
    ∀ (d : List (String × ℚ) × List (String × ℚ)) (uid : String),
    (((l.foldl (dividend_step st users) d).1.lookup uid).getD 0 =
      (d.1.lookup uid).getD 0 +
      (l.map (fun s =>
        match st.stock_prices.lookup s with
        | none => 0
        | some price =>
          if price ≤ 0 then 0
          else spec_sh_payment price (get_shareholders users s) uid)).sum) ∧
    (((l.foldl (dividend_step st users) d).2.lookup uid).getD 0 =
      (d.2.lookup uid).getD 0 +
      (l.map (fun s =>
        match st.stock_prices.lookup s with
        | none => 0
        | some price =>
          if price ≤ 0 then 0
          else spec_cr_payment st.user_to_ticker s price (get_shareholders users s) uid)).sum) := by
  induction l with
  | nil => intro d uid; simp
  | cons a t ih =>
    intro d uid
    simp only [List.foldl_cons, List.map_cons, List.sum_cons]
    have hIH := ih (dividend_step st users d a) uid
    refine ⟨?_, ?_⟩
    · rw [hIH.1]
      have hstep : (((dividend_step st users d a).1.lookup uid).getD 0 : ℚ) =
          (d.1.lookup uid).getD 0 +
          (match st.stock_prices.lookup a with
           | none => 0
           | some price =>
             if price ≤ 0 then 0
             else spec_sh_payment price (get_shareholders users a) uid) := by
        unfold dividend_step
        cases hp : st.stock_prices.lookup a with
        | none => simp
        | some price =>
          by_cases hle : price ≤ 0
          · simp [hle]
          · simp only [if_neg hle]
            have := calc_sh_lookup price ((get_shareholders users a).take
              TOP_SHAREHOLDERS_COUNT).enum d.1 uid
            exact this
      rw [hstep]
      ring
    · rw [hIH.2]
      have hstep : (((dividend_step st users d a).2.lookup uid).getD 0 : ℚ) =
          (d.2.lookup uid).getD 0 +
          (match st.stock_prices.lookup a with
           | none => 0
           | some price =>
             if price ≤ 0 then 0
             else spec_cr_payment st.user_to_ticker a price (get_shareholders users a) uid) := by
        unfold dividend_step
        cases hp : st.stock_prices.lookup a with
        | none => simp
        | some price =>
          by_cases hle : price ≤ 0
          · simp [hle]
          · simp only [if_neg hle]
            exact calc_cr_lookup st.user_to_ticker a price (get_shareholders users a) d.2 uid
      rw [hstep]
      ring

theorem apply_user_dividend_self (p1 p2 : List (String × ℚ)) (today : String)
    (us : UserData) (uid : String) :
    (apply_user_dividend p1 p2 today us uid).lookup uid =
      some (payRec (us.lookup uid) today
        ((p1.lookup uid).getD 0 + (p2.lookup uid).getD 0)) := by
  unfold apply_user_dividend payRec ensure_user update_balance
  cases hu : us.lookup uid with
  | some u =>
    by_cases hpos : 0 < ((p1.lookup uid).getD 0) + ((p2.lookup uid).getD 0)
    · simp [hu, hpos, lookup_setk_self]
    · simp [hu, hpos]
  | none =>
    have hlk : (us ++ [(uid, DEFAULT_USER_DATA)]).lookup uid = some DEFAULT_USER_DATA := by
      rw [lookup_append, hu]
      simp [List.lookup]
    by_cases hpos : 0 < ((p1.lookup uid).getD 0) + ((p2.lookup uid).getD 0)
    · simp [hu, hpos, hlk, lookup_setk_self]
    · simp [hu, hpos, hlk]

theorem apply_user_dividend_ne (p1 p2 : List (String × ℚ)) (today : String)
    (us : UserData) (uid v : String) (hne : v ≠ uid) :
    (apply_user_dividend p1 p2 today us uid).lookup v = us.lookup v := by
  unfold apply_user_dividend ensure_user update_balance
  cases hu : us.lookup uid with
  | some u =>
    by_cases hpos : 0 < ((p1.lookup uid).getD 0) + ((p2.lookup uid).getD 0)
    · simp [hu, hpos, lookup_setk_self, lookup_setk_ne _ _ hne]
    · simp [hu, hpos]
  | none =>
    have hlk : (us ++ [(uid, DEFAULT_USER_DATA)]).lookup uid = some DEFAULT_USER_DATA := by
      rw [lookup_append, hu]
      simp [List.lookup]
    have hlv : (us ++ [(uid, DEFAULT_USER_DATA)]).lookup v = us.lookup v := by
      rw [lookup_append]
      cases hv : us.lookup v with
      | some w => simp
      | none => simp [List.lookup, beq_false_of_ne hne]
    by_cases hpos : 0 < ((p1.lookup uid).getD 0) + ((p2.lookup uid).getD 0)
    · simp [hu, hpos, hlk, hlv, lookup_setk_self, lookup_setk_ne _ _ hne]
    · simp [hu, hpos, hlv]

theorem apply_fold_preserve (p1 p2 : List (String × ℚ)) (today : String)
    (l : List String) (uid : String) (h : uid ∉ l) :
    ∀ us : UserData,
    (l.foldl (apply_user_dividend p1 p2 today) us).lookup uid = us.lookup uid := by
  induction l with
  | nil => intro us; rfl
  | cons a t ih =>
    intro us
    simp only [List.foldl_cons]
    have hna : uid ≠ a := fun hx => h (hx ▸ List.mem_cons_self a t)
    have hnt : uid ∉ t := fun hx => h (List.mem_cons_of_mem a hx)
    rw [ih hnt, apply_user_dividend_ne _ _ _ _ _ _ hna]

theorem apply_fold_at (p1 p2 : List (String × ℚ)) (today : String)
    (l : List String) (uid : String) (hnd : l.Nodup) (hmem : uid ∈ l) :
    ∀ us : UserData,
    (l.foldl (apply_user_dividend p1 p2 today) us).lookup uid =
      some (payRec (us.lookup uid) today
        ((p1.lookup uid).getD 0 + (p2.lookup uid).getD 0)) := by
  induction l with
  | nil => exact absurd hmem (List.not_mem_nil uid)
  | cons a t ih =>
    intro us
    simp only [List.foldl_cons]
    by_cases heq : uid = a
    · subst heq
      have hnt : uid ∉ t := (List.nodup_cons.mp hnd).1
      rw [apply_fold_preserve _ _ _ _ _ hnt, apply_user_dividend_self]
    · have hmt : uid ∈ t := (List.mem_cons.mp hmem).resolve_left heq
      rw [ih (List.nodup_cons.mp hnd).2 hmt,
        apply_user_dividend_ne _ _ _ _ _ _ heq]

theorem dividend_pass_total (st : MarketState) (users : UserData) (uid : String) :
    ((dividend_pass st users).1.lookup uid).getD 0 +
      ((dividend_pass st users).2.lookup uid).getD 0 = spec_user_total st users uid := by
  obtain ⟨h1, h2⟩ := dividend_pass_lookup st users st.stock_symbols ([], []) uid
  unfold dividend_pass
  rw [h1, h2]
  simp only [List.lookup_nil, Option.getD_none, zero_add]
  unfold spec_user_total
  induction st.stock_symbols with
  | nil => simp
  | cons a t ih =>
    cases hp : st.stock_prices.lookup a with
    | none =>
      simp only [List.map_cons, List.sum_cons, hp, zero_add]
      exact ih
    | some price =>
      by_cases hle : price ≤ 0
      · simp only [List.map_cons, List.sum_cons, hp, if_pos hle, zero_add]
        exact ih
      · simp only [List.map_cons, List.sum_cons, hp, if_neg hle]
        linear_combination ih

/-- C5 (amended): one daily dividend run accumulates, for every user, the
top-3 per-rank payments (1%, 0.5%, 0.25% of each positive price, rounded
per stock over the shares-descending ranking) plus the creator payment
round(price * 0.5/100 * otherShares, 2); each user named by either
dictionary ends with the record payRec: the summed total credited to the
balance exactly once AND the last-dividend record overwritten with
(today, total) when the total is positive, but an untouched record
(beyond default creation) when the total is zero — the claim's
unconditional overwrite does not hold. Users named by neither dictionary
are untouched. -/
theorem process_daily_dividends_spec (st : MarketState) (users : UserData)
    (today : String) (uid : String) :
    (((process_daily_dividends st users today).2.1.lookup uid).getD 0 +
      ((process_daily_dividends st users today).2.2.lookup uid).getD 0 =
        spec_user_total st users uid) ∧
    (uid ∈ dividendIds st users →
      (process_daily_dividends st users today).1.lookup uid =
        some (payRec (users.lookup uid) today (spec_user_total st users uid))) ∧
    (uid ∉ dividendIds st users →
      (process_daily_dividends st users today).1.lookup uid = users.lookup uid) := by
  have htotal := dividend_pass_total st users uid
  have hnd : (dividendIds st users).Nodup := List.nodup_dedup _
  refine ⟨?_, ?_, ?_⟩
  · simp only [process_daily_dividends]
    exact htotal
  · intro hmem
    have h := apply_fold_at (dividend_pass st users).1 (dividend_pass st users).2 today
      (dividendIds st users) uid hnd hmem users
    rw [htotal] at h
    simp only [process_daily_dividends]
    exact h
  · intro hmem
    simp only [process_daily_dividends]
    exact apply_fold_preserve _ _ today _ uid hmem users

/-- Counterexample data: one listed stock at $1.00 with three positive
holders and no creator entry. The rank-2 holder's payment is
round(1.00 * 0.25/100, 2) = 0. -/
def cxMarket : MarketState :=
  ⟨["$S"], [], [("$S", 1)], [("$S", [1])], "stable", -3, 3, none⟩

def cxDivUsers : UserData :=
  [("A", ⟨50, [("$S", 3)], [], none⟩),
   ("B", ⟨50, [("$S", 2)], [], none⟩),
   ("C", ⟨50, [("$S", 1)], [], none⟩)]

theorem cx_shareholders :
    get_shareholders cxDivUsers "$S" = [("A", 3), ("B", 2), ("C", 1)] := by
  simp [get_shareholders, cxDivUsers, List.filterMap, List.lookup,
    List.insertionSort, List.orderedInsert, sharesGE]

theorem cx_pass :
    dividend_pass cxMarket cxDivUsers =
      ([("A", 1/100), ("B", 1/100), ("C", 0)], []) := by
  norm_num [dividend_pass, cxMarket, dividend_step, List.lookup, cx_shareholders,
    calculate_top_shareholder_dividends, calculate_creator_dividends,
    find_creator, TOP_SHAREHOLDERS_COUNT, TOP_SHAREHOLDER_DIVIDENDS,
    List.enum, List.enumFrom, addk, setk, round2]
  simp

theorem cx_ids : dividendIds cxMarket cxDivUsers = ["A", "B", "C"] := by
  simp [dividendIds, cx_pass, List.dedup_cons_of_not_mem]

theorem cx_final :
    (process_daily_dividends cxMarket cxDivUsers "2025-02-03").1 =
      [("A", ⟨50 + 1/100, [("$S", 3)], [], some ("2025-02-03", 1/100)⟩),
       ("B", ⟨50 + 1/100, [("$S", 2)], [], some ("2025-02-03", 1/100)⟩),
       ("C", ⟨50, [("$S", 1)], [], none⟩)] := by
  simp only [process_daily_dividends, cx_ids, cx_pass]
  simp [apply_user_dividend, ensure_user, update_balance, List.lookup,
    setk, cxDivUsers]

/-- C5 counterexample to the original claim: with one stock listed at $1.00
and three positive holders, the rank-2 holder "C" is paid — their entry in
the shareholder-dividend dictionary exists, holding
round(1.00 * 0.25/100, 2) = 0 — so the claim's final clause requires C's
last-dividend record to be overwritten with the run's date and total; but
the run leaves C's record exactly as it started: last_dividend is still
none and the balance is untouched. -/
theorem process_daily_dividends_cx :
    "C" ∈ dividendIds cxMarket cxDivUsers ∧
    (process_daily_dividends cxMarket cxDivUsers "2025-02-03").2.1.lookup "C" = some 0 ∧
    (process_daily_dividends cxMarket cxDivUsers "2025-02-03").1.lookup "C" =
      some ⟨50, [("$S", 1)], [], none⟩ ∧
    cxDivUsers.lookup "C" = some ⟨50, [("$S", 1)], [], none⟩ := by
  refine ⟨?_, ?_, ?_, ?_⟩
  · rw [cx_ids]; simp
  · simp only [process_daily_dividends, cx_pass]
    simp [List.lookup]
  · simp [cx_final, List.lookup]
  · simp [cxDivUsers, List.lookup]

theorem process_daily_dividends_spec_witness :
    ("A" ∈ dividendIds cxMarket cxDivUsers ∧
      (process_daily_dividends cxMarket cxDivUsers "2025-02-03").1.lookup "A" =
        some (payRec (cxDivUsers.lookup "A") "2025-02-03"
          (spec_user_total cxMarket cxDivUsers "A"))) ∧
    ("D" ∉ dividendIds cxMarket cxDivUsers ∧
      (process_daily_dividends cxMarket cxDivUsers "2025-02-03").1.lookup "D" =
        cxDivUsers.lookup "D") := by
  have hA : "A" ∈ dividendIds cxMarket cxDivUsers := by rw [cx_ids]; simp
  have hD : "D" ∉ dividendIds cxMarket cxDivUsers := by rw [cx_ids]; simp
  exact ⟨⟨hA, (process_daily_dividends_spec cxMarket cxDivUsers "2025-02-03" "A").2.1 hA⟩,
    ⟨hD, (process_daily_dividends_spec cxMarket cxDivUsers "2025-02-03" "D").2.2 hD⟩⟩
